import Mathlib

/-!
Verification development for the Blob-OSC multi-object tracker.

This file gives a shallow embedding of the tracking core of the repository:

* `src/blob_osc/bytetrack.py` — the simplified ByteTrack implementation
  (`Track`, `BYTETracker.update`, `_associate`, `_greedy_assignment`,
  `_calculate_ious`);
* `src/blob_osc/processor.py` — the fallback centroid tracker
  (`BlobTracker.update`, `BlobTracker._match_detections`) and the id
  reconciliation step (`ImageProcessor._convert_tracks_to_blobs`).

Modelling conventions:

* Python floats are embedded as rationals (`ℚ`); every comparison the
  claims depend on is either exact in binary floating point on the inputs
  used, or robust to exact arithmetic (threshold comparisons).
* Euclidean distances (`np.sqrt(dx**2 + dy**2)`) are embedded by their
  squares: `sqrt` is strictly monotone on nonnegatives, so every
  comparison of distances in the source (`<`, `<=` against another
  distance or a constant radius) is equivalent to the same comparison of
  squared distances against the squared radius.  The embedded code
  compares `dx^2 + dy^2` where the source compares `sqrt(dx^2 + dy^2)`.
* The 8×8 covariance matrix is initialized as `np.eye(8) * 1000` and is
  only ever multiplied by the scalar `1.1`; it therefore always equals
  `c • I₈` and is embedded by the scalar `c` alone.
* The optimal-assignment branch of `_associate` depends on the optional
  `lap` package; the embedding models the environment without `lap`
  (`LAP_AVAILABLE = False`), in which `_associate` always takes the
  documented greedy fallback `_greedy_assignment`.
* Python list indexing that cannot go out of range in the source is
  embedded with `List.getD` / `List.get?` (out-of-range accesses, which
  would raise in Python, become benign defaults that are never exercised).
-/

namespace BlobOSC

/-- Axis-aligned bounding box `[x1, y1, x2, y2]` (source: `Detection.bbox`,
`Track.bbox`, numpy arrays of four floats). -/
structure BBox where
  x1 : ℚ
  y1 : ℚ
  x2 : ℚ
  y2 : ℚ
deriving DecidableEq

/-- Source: `Detection` dataclass in `bytetrack.py` (the `class_id` field is
never read by the tracker and is omitted). -/
structure Detection where
  bbox : BBox
  score : ℚ
deriving DecidableEq

/-- Source: `TrackState` dataclass — plain integer constants. -/
def TrackStateNEW : ℕ := 0

/-- Source: `TrackState.TRACKED = 1`. -/
def TrackStateTRACKED : ℕ := 1

/-- Source: `TrackState.LOST = 2`. -/
def TrackStateLOST : ℕ := 2

/-- Source: `TrackState.REMOVED = 3`. -/
def TrackStateREMOVED : ℕ := 3

/-- The simplified Kalman state vector `[cx, cy, w, h, vx, vy, vw, vh]`
(source: `Track.mean`). -/
structure KState where
  cx : ℚ
  cy : ℚ
  w : ℚ
  h : ℚ
  vx : ℚ
  vy : ℚ
  vw : ℚ
  vh : ℚ
deriving DecidableEq

/-- Source: `Track` dataclass.  `mean` and `covariance` are always set by
`__post_init__`, so they are not optional here; `covariance` is the scalar
`c` of the matrix `c • I₈` (see the module comment). -/
structure Track where
  track_id : ℕ
  bbox : BBox
  score : ℚ
  state : ℕ
  frame_id : ℤ
  start_frame : ℤ
  tracklet_len : ℕ
  mean : KState
  covariance : ℚ
deriving DecidableEq

/-- Track construction: the dataclass constructor followed by
`__post_init__` with `mean = None`, `covariance = None` (the only way
tracks are built in the repository). -/
def mkTrack (track_id : ℕ) (bbox : BBox) (score : ℚ) (state : ℕ)
    (frame_id start_frame : ℤ) (tracklet_len : ℕ) : Track :=
  { track_id := track_id, bbox := bbox, score := score, state := state,
    frame_id := frame_id, start_frame := start_frame, tracklet_len := tracklet_len,
    mean := { cx := (bbox.x1 + bbox.x2) / 2, cy := (bbox.y1 + bbox.y2) / 2,
              w := bbox.x2 - bbox.x1, h := bbox.y2 - bbox.y1,
              vx := 0, vy := 0, vw := 0, vh := 0 },
    covariance := 1000 }

/-- Source: `Track.predict` — constant-velocity step on the first four
components, uncertainty inflated by `1.1`. -/
def Track.predict (t : Track) : Track :=
  { t with
    mean := { t.mean with
      cx := t.mean.cx + t.mean.vx, cy := t.mean.cy + t.mean.vy,
      w := t.mean.w + t.mean.vw, h := t.mean.h + t.mean.vh },
    covariance := t.covariance * (11/10) }

/-- Source: `Track.update(detection)` — recompute velocities against the
current mean (Δt = 1), overwrite the mean, copy the detection's box and
score, increment the tracklet length.  (`self.mean is not None` always
holds after `__post_init__`.) -/
def Track.update (t : Track) (d : Detection) : Track :=
  let cx := (d.bbox.x1 + d.bbox.x2) / 2
  let cy := (d.bbox.y1 + d.bbox.y2) / 2
  let w := d.bbox.x2 - d.bbox.x1
  let h := d.bbox.y2 - d.bbox.y1
  { t with
    mean := { cx := cx, cy := cy, w := w, h := h,
              vx := cx - t.mean.cx, vy := cy - t.mean.cy,
              vw := w - t.mean.w, vh := h - t.mean.h },
    bbox := d.bbox, score := d.score, tracklet_len := t.tracklet_len + 1 }

/-- Source: `Track.get_bbox` — derive `[x1, y1, x2, y2]` from the mean
(`self.mean is not None` always holds). -/
def Track.get_bbox (t : Track) : BBox :=
  { x1 := t.mean.cx - t.mean.w / 2, y1 := t.mean.cy - t.mean.h / 2,
    x2 := t.mean.cx + t.mean.w / 2, y2 := t.mean.cy + t.mean.h / 2 }

/-- Source: `Track.get_center` (`self.mean is not None` always holds). -/
def Track.get_center (t : Track) : ℚ × ℚ :=
  (t.mean.cx, t.mean.cy)

/-- Placeholder detection for `List.getD`; never exercised on in-range
indices. -/
def junkDetection : Detection :=
  { bbox := { x1 := 0, y1 := 0, x2 := 0, y2 := 0 }, score := 0 }

/-- Placeholder track for `List.getD`; never exercised on in-range
indices. -/
def junkTrack : Track :=
  mkTrack 0 { x1 := 0, y1 := 0, x2 := 0, y2 := 0 } 0 TrackStateNEW 0 0 0

/-- Source: the pairwise case of `BYTETracker._calculate_ious` — clamped
intersection over union with the `1e-6` floor on the denominator. -/
def iouPair (a b : BBox) : ℚ :=
  let x1 := max a.x1 b.x1
  let y1 := max a.y1 b.y1
  let x2 := min a.x2 b.x2
  let y2 := min a.y2 b.y2
  let intersection := max 0 (x2 - x1) * max 0 (y2 - y1)
  let area1 := (a.x2 - a.x1) * (a.y2 - a.y1)
  let area2 := (b.x2 - b.x1) * (b.y2 - b.y1)
  let union := area1 + area2 - intersection
  intersection / max union (1/1000000)

/-- Source: `BYTETracker._calculate_cost_matrix` entry `(i, j)`:
`1 - iou(track_bbox, det_bbox)`. -/
def costOf (tracks : List Track) (dets : List Detection) (i j : ℕ) : ℚ :=
  1 - iouPair ((tracks.getD i junkTrack).get_bbox) ((dets.getD j junkDetection).bbox)

/-- Source: the inner `for d in unmatched_detections` loop of
`_greedy_assignment` — strict improvement, so the first minimum wins. -/
def bestInRow (f : ℕ → ℕ → ℚ) (t : ℕ) : List ℕ → Option (ℚ × ℕ × ℕ) → Option (ℚ × ℕ × ℕ)
  | [], acc => acc
  | d :: ds, acc =>
    let acc' :=
      match acc with
      | none => some (f t d, t, d)
      | some (c, bt, bd) => if f t d < c then some (f t d, t, d) else some (c, bt, bd)
    bestInRow f t ds acc'

/-- Source: the `for t in unmatched_tracks` loop of `_greedy_assignment`
(initial `min_cost = inf`, `best = -1` is the `none` accumulator). -/
def bestPair (f : ℕ → ℕ → ℚ) : List ℕ → List ℕ → Option (ℚ × ℕ × ℕ) → Option (ℚ × ℕ × ℕ)
  | [], _, acc => acc
  | t :: ts, ds, acc => bestPair f ts ds (bestInRow f t ds acc)

/-- Source: the `while unmatched_tracks and unmatched_detections` loop of
`_greedy_assignment`.  Every committed match removes one entry from
`unmatched_tracks`, so `fuel := unmatched_tracks.length` at the entry
point bounds the iteration count exactly; the `fuel = 0` fallthrough is
never reached with a nonempty `uts`. -/
def greedyLoop (f : ℕ → ℕ → ℚ) (thresh : ℚ) :
    ℕ → List ℕ → List ℕ → List (ℕ × ℕ) → List (ℕ × ℕ) × List ℕ × List ℕ
  | 0, uts, uds, pairs => (pairs, uds, uts)
  | _ + 1, [], uds, pairs => (pairs, uds, [])
  | _ + 1, ut :: uts, [], pairs => (pairs, [], ut :: uts)
  | fuel + 1, ut :: uts, ud :: uds, pairs =>
    match bestPair f (ut :: uts) (ud :: uds) none with
    | none => (pairs, ud :: uds, ut :: uts)
    | some (c, bt, bd) =>
      if c ≤ thresh then
        greedyLoop f thresh fuel ((ut :: uts).erase bt) ((ud :: uds).erase bd)
          (pairs ++ [(bt, bd)])
      else (pairs, ud :: uds, ut :: uts)

/-- Source: `BYTETracker._greedy_assignment` — on an empty cost matrix it
returns three empty lists; otherwise it runs the greedy loop starting
from all indices unmatched. -/
def greedyAssignment (f : ℕ → ℕ → ℚ) (nT nD : ℕ) (thresh : ℚ) :
    List (ℕ × ℕ) × List ℕ × List ℕ :=
  if nT = 0 ∨ nD = 0 then ([], [], [])
  else greedyLoop f thresh nT (List.range nT) (List.range nD) []

/-- Source: `BYTETracker._associate` — trivial result on an empty side,
otherwise the greedy fallback on the IoU cost matrix (the `lap` branch is
environment-dependent and absent in the modelled environment; see the
module comment). -/
def associate (tracks : List Track) (dets : List Detection) (thresh : ℚ) :
    List (ℕ × ℕ) × List ℕ × List ℕ :=
  if tracks = [] ∨ dets = [] then
    ([], List.range dets.length, List.range tracks.length)
  else
    greedyAssignment (costOf tracks dets) tracks.length dets.length thresh

/-- Source: `BYTETracker.__init__` fields plus the constructor parameters
(`mot20` is never read and is omitted). -/
structure TrackerState where
  track_thresh : ℚ
  track_buffer : ℤ
  match_thresh : ℚ
  min_box_area : ℚ
  frame_id : ℤ
  tracked_tracks : List Track
  lost_tracks : List Track
  removed_tracks : List Track
  track_id_count : ℕ
deriving DecidableEq

/-- Source: `BYTETracker.__init__`. -/
def initState (track_thresh : ℚ) (track_buffer : ℤ) (match_thresh : ℚ)
    (min_box_area : ℚ) : TrackerState :=
  { track_thresh := track_thresh, track_buffer := track_buffer,
    match_thresh := match_thresh, min_box_area := min_box_area,
    frame_id := 0, tracked_tracks := [], lost_tracks := [],
    removed_tracks := [], track_id_count := 0 }

/-- Source: `BYTETracker.reset`. -/
def resetState (s : TrackerState) : TrackerState :=
  { s with frame_id := 0, tracked_tracks := [], lost_tracks := [],
           removed_tracks := [], track_id_count := 0 }

/-- Source: the detection-filter loop at the top of `BYTETracker.update` —
one pass appending to `valid_detections` / `low_score_detections`. -/
def splitDetections (minArea thresh : ℚ) : List Detection → List Detection × List Detection
  | [] => ([], [])
  | d :: ds =>
    let rest := splitDetections minArea thresh ds
    if (d.bbox.x2 - d.bbox.x1) * (d.bbox.y2 - d.bbox.y1) ≥ minArea then
      if d.score ≥ thresh then (d :: rest.1, rest.2)
      else (rest.1, d :: rest.2)
    else rest

/-- Replace the element at index `i` (no-op when out of range); used to
embed Python's in-place mutation of a list element through an index. -/
def modifyAt {α : Type} : List α → ℕ → (α → α) → List α
  | [], _, _ => []
  | x :: xs, 0, f => f x :: xs
  | x :: xs, n + 1, f => x :: modifyAt xs n f

/-- Source: the three statements run for every matched `(track_idx,
det_idx)` pair: `track.update(det)`, `track.state = TRACKED`,
`track.frame_id = self.frame_id`. -/
def matchedUpdate (fid : ℤ) (d : Detection) (t : Track) : Track :=
  { Track.update t d with state := TrackStateTRACKED, frame_id := fid }

/-- Source: the first-association update loop of `BYTETracker.update`
(pairs index directly into `tracked_tracks` and `valid_detections`). -/
def applyMatches (fid : ℤ) (dets : List Detection) (pairs : List (ℕ × ℕ))
    (l : List Track) : List Track :=
  pairs.foldl (fun acc p => modifyAt acc p.1 (matchedUpdate fid (dets.getD p.2 junkDetection))) l

/-- Source: the second-association update loop — pair indices go through
`unmatched_tracked_tracks`, i.e. through the index map `idxMap` into the
real tracked list (Python aliasing of the list elements). -/
def applyMatchesVia (fid : ℤ) (dets : List Detection) (idxMap : List ℕ)
    (pairs : List (ℕ × ℕ)) (l : List Track) : List Track :=
  pairs.foldl
    (fun acc p =>
      match idxMap.get? p.1 with
      | some i => modifyAt acc i (matchedUpdate fid (dets.getD p.2 junkDetection))
      | none => acc) l

/-- Source: the `track.state = TrackState.LOST` loop over
`unmatched_tracks_low`, again through the `unmatched_tracked_tracks`
aliases. -/
def markLost (idxMap : List ℕ) (idxs : List ℕ) (l : List Track) : List Track :=
  idxs.foldl
    (fun acc j =>
      match idxMap.get? j with
      | some i => modifyAt acc i (fun t => { t with state := TrackStateLOST })
      | none => acc) l

/-- Source: the new-track creation loop — every remaining detection with
`score >= track_thresh` gets `Track(track_id=self.track_id_count, ...)`
and the counter is incremented. -/
def mkNewTracks (thresh : ℚ) (cnt : ℕ) (fid : ℤ) : List Detection → List Track
  | [] => []
  | d :: ds =>
    if d.score ≥ thresh then
      mkTrack cnt d.bbox d.score TrackStateTRACKED fid fid 1 :: mkNewTracks thresh (cnt + 1) fid ds
    else mkNewTracks thresh cnt fid ds

/-- Source: the lost-track re-association loop — each matched pair updates
the lost track in place (the same object is appended to
`tracked_tracks`, hence both the tracked list and the lost list see the
mutation). -/
def reviveLoop (fid : ℤ) (rem : List Detection) :
    List (ℕ × ℕ) → List Track → List Track → List Track × List Track
  | [], tracked, lost => (tracked, lost)
  | (ti, di) :: rest, tracked, lost =>
    match lost.get? ti with
    | some t =>
      let t' := matchedUpdate fid (rem.getD di junkDetection) t
      reviveLoop fid rem rest (tracked ++ [t']) (lost.set ti t')
    | none => reviveLoop fid rem rest tracked lost

/-- Source: the lost-track expiry loop — keep while
`frame_id - track.frame_id <= track_buffer`, otherwise flag
`REMOVED` and archive. -/
def pruneLost (fid : ℤ) (buffer : ℤ) : List Track → List Track × List Track
  | [] => ([], [])
  | t :: ts =>
    let rest := pruneLost fid buffer ts
    if fid - t.frame_id ≤ buffer then (t :: rest.1, rest.2)
    else (rest.1, { t with state := TrackStateREMOVED } :: rest.2)

/-!
`BYTETracker.update` is embedded as a chain of named stage definitions,
one per block of the source method, each applied to the pre-call state
`s` and the incoming detection list (the source's local variables
`valid_detections`, `low_score_detections`, `matched_tracks`, … become
these definitions; `self.frame_id` has already been incremented to
`s.frame_id + 1` when the blocks run).
-/

/-- Source: `valid_detections` after the filter loop. -/
def validOf (s : TrackerState) (detections : List Detection) : List Detection :=
  (splitDetections s.min_box_area s.track_thresh detections).1

/-- Source: `low_score_detections` after the filter loop. -/
def lowOf (s : TrackerState) (detections : List Detection) : List Detection :=
  (splitDetections s.min_box_area s.track_thresh detections).2

/-- Source: `tracked_tracks` after the `track.predict()` loop. -/
def predictedOf (s : TrackerState) : List Track :=
  s.tracked_tracks.map Track.predict

/-- Source: the first `_associate` call (`matched_tracks,
unmatched_detections, unmatched_tracks`). -/
def assoc1Of (s : TrackerState) (detections : List Detection) :
    List (ℕ × ℕ) × List ℕ × List ℕ :=
  associate (predictedOf s) (validOf s detections) s.match_thresh

/-- Source: `tracked_tracks` after the first matched-update loop. -/
def tracked2Of (s : TrackerState) (detections : List Detection) : List Track :=
  applyMatches (s.frame_id + 1) (validOf s detections) (assoc1Of s detections).1
    (predictedOf s)

/-- Source: the second `_associate` call against
`unmatched_tracked_tracks` at threshold `0.5`. -/
def assoc2Of (s : TrackerState) (detections : List Detection) :
    List (ℕ × ℕ) × List ℕ × List ℕ :=
  associate
    ((assoc1Of s detections).2.2.map (fun i => (tracked2Of s detections).getD i junkTrack))
    (lowOf s detections) (1/2)

/-- Source: the `if low_score_detections:` block — the tracked list after
the second matched-update loop, `remaining_detections`, and
`unmatched_tracks_low` (indices into `unmatched_tracked_tracks`). -/
def step2Of (s : TrackerState) (detections : List Detection) :
    List Track × List Detection × List ℕ :=
  if lowOf s detections = [] then
    (tracked2Of s detections,
     (assoc1Of s detections).2.1.map (fun i => (validOf s detections).getD i junkDetection),
     List.range (assoc1Of s detections).2.2.length)
  else
    (applyMatchesVia (s.frame_id + 1) (lowOf s detections) (assoc1Of s detections).2.2
       (assoc2Of s detections).1 (tracked2Of s detections),
     (assoc1Of s detections).2.1.map (fun i => (validOf s detections).getD i junkDetection)
       ++ (assoc2Of s detections).2.1.map
            (fun j => (lowOf s detections).getD j junkDetection),
     (assoc2Of s detections).2.2)

/-- Source: the tracked list after the `track.state = TrackState.LOST`
loop over `unmatched_tracks_low`. -/
def tracked4Of (s : TrackerState) (detections : List Detection) : List Track :=
  markLost (assoc1Of s detections).2.2 (step2Of s detections).2.2 (step2Of s detections).1

/-- Source: `remaining_detections`. -/
def remainingOf (s : TrackerState) (detections : List Detection) : List Detection :=
  (step2Of s detections).2.1

/-- Source: the tracks built by the new-track creation loop (each is also
appended to `tracked_tracks` there). -/
def createdOf (s : TrackerState) (detections : List Detection) : List Track :=
  mkNewTracks s.track_thresh s.track_id_count (s.frame_id + 1) (remainingOf s detections)

/-- Source: line 256 — `self.tracked_tracks = [t for t in
self.tracked_tracks if t.state == TRACKED]` after the creation loop. -/
def tracked6Of (s : TrackerState) (detections : List Detection) : List Track :=
  ((tracked4Of s detections) ++ createdOf s detections).filter
    (fun t => t.state == TrackStateTRACKED)

/-- Source: line 257 — `self.lost_tracks.extend([t for t in
self.tracked_tracks if t.state == LOST])`, where `self.tracked_tracks`
has already been filtered to `TRACKED` by line 256 (the extension is
therefore always empty — the lost-pool bug). -/
def lost1Of (s : TrackerState) (detections : List Detection) : List Track :=
  s.lost_tracks ++ (tracked6Of s detections).filter (fun t => t.state == TrackStateLOST)

/-- Source: the `if self.lost_tracks and remaining_detections:`
re-association block — returns (tracked list with revived tracks
appended, lost list after in-place revivals). -/
def step8Of (s : TrackerState) (detections : List Detection) : List Track × List Track :=
  if lost1Of s detections ≠ [] ∧ remainingOf s detections ≠ [] then
    reviveLoop (s.frame_id + 1) (remainingOf s detections)
      (associate (lost1Of s detections) (remainingOf s detections) (1/2)).1
      (tracked6Of s detections) (lost1Of s detections)
  else (tracked6Of s detections, lost1Of s detections)

/-- Source: `BYTETracker.update`, assembling the stages in source order.
The returned triple is (return value, new tracker state, tracks created
this call); the third component only names the new tracks already
appended by the embedded code, for use in theorem statements. -/
def updateFull (s : TrackerState) (detections : List Detection) :
    List Track × TrackerState × List Track :=
  let tracked7 := (step8Of s detections).1
  let lost3 := (step8Of s detections).2.filter (fun t => t.state == TrackStateLOST)
  let pr := pruneLost (s.frame_id + 1) s.track_buffer lost3
  (tracked7.filter (fun t => t.state == TrackStateTRACKED),
   { s with frame_id := s.frame_id + 1, tracked_tracks := tracked7,
            lost_tracks := pr.1, removed_tracks := s.removed_tracks ++ pr.2,
            track_id_count := s.track_id_count + (createdOf s detections).length },
   createdOf s detections)

/-- Source: `BYTETracker.update` — return value and state effect. -/
def update (s : TrackerState) (detections : List Detection) :
    List Track × TrackerState :=
  ((updateFull s detections).1, (updateFull s detections).2.1)

/-- The tracks created by one `update` call (third component of
`updateFull`). -/
def newTracksOf (s : TrackerState) (detections : List Detection) : List Track :=
  (updateFull s detections).2.2

/-- The `track_id`s of a track list. -/
def idsOf (l : List Track) : List ℕ := l.map Track.track_id

/-- All ids across the three pools of a tracker state. -/
def poolIds (s : TrackerState) : List ℕ :=
  idsOf s.tracked_tracks ++ idsOf s.lost_tracks ++ idsOf s.removed_tracks

/-- States reachable from construction (`BYTETracker.__init__`) by any
sequence of `update` calls and `reset`s, with fixed configuration. -/
inductive Reachable (tt : ℚ) (tb : ℤ) (mt mba : ℚ) : TrackerState → Prop where
  | init : Reachable tt tb mt mba (initState tt tb mt mba)
  | step (s : TrackerState) (dets : List Detection) :
      Reachable tt tb mt mba s → Reachable tt tb mt mba (update s dets).2
  | reset (s : TrackerState) :
      Reachable tt tb mt mba s → Reachable tt tb mt mba (resetState s)

/-! ### Embedding of `processor.py`: `BlobInfo` and id reconciliation -/

/-- Source: the `BlobInfo` dataclass of `processor.py`.  `bbox` is the
`(x, y, w, h)` integer tuple of `cv2.boundingRect`; `contour` and
`polygon` are point lists (the numpy contour of the synthesized blob has
the same four corner points as its polygon). -/
structure BlobInfo where
  id : ℤ
  contour : List (ℤ × ℤ)
  bbox : ℤ × ℤ × ℤ × ℤ
  center : ℚ × ℚ
  area : ℚ
  polygon : List (ℤ × ℤ)
deriving DecidableEq

/-- Placeholder blob for `List.getD`; never exercised on in-range
indices. -/
def junkBlob : BlobInfo :=
  { id := 0, contour := [], bbox := (0, 0, 0, 0), center := (0, 0), area := 0, polygon := [] }

/-- Python `int()` on a float: truncation toward zero. -/
def pyTrunc (q : ℚ) : ℤ := if 0 ≤ q then ⌊q⌋ else ⌈q⌉

/-- Squared Euclidean distance between two points.  The source compares
`np.sqrt(dx**2 + dy**2)` against other distances and against constant
radii; `sqrt` is strictly monotone on nonnegatives, so all those
comparisons are embedded on the squares (see the module comment). -/
def dist2q (a b : ℚ × ℚ) : ℚ := (a.1 - b.1) ^ 2 + (a.2 - b.2) ^ 2

/-- Source: the `for i, blob in enumerate(original_blobs)` scan inside
`_convert_tracks_to_blobs` — skip used indices, keep the strictly
closest candidate (first minimum wins; `min_distance = inf`,
`best_blob = None` is the `none` accumulator). -/
def bestUnusedAux (c : ℚ × ℚ) (used : List ℕ) :
    List BlobInfo → ℕ → Option (ℕ × ℚ) → Option (ℕ × ℚ)
  | [], _, acc => acc
  | b :: bs, i, acc =>
    if i ∈ used then bestUnusedAux c used bs (i + 1) acc
    else
      let d2 := dist2q c b.center
      let acc' :=
        match acc with
        | none => some (i, d2)
        | some (bi, bd) => if d2 < bd then some (i, d2) else some (bi, bd)
      bestUnusedAux c used bs (i + 1) acc'

/-- The full scan over `original_blobs` starting at index 0. -/
def bestUnused (c : ℚ × ℚ) (used : List ℕ) (blobs : List BlobInfo) : Option (ℕ × ℚ) :=
  bestUnusedAux c used blobs 0 none

/-- Source: the `tracked_blob = BlobInfo(id=track.track_id, ...)` branch —
the track's id bound to the original blob's geometry. -/
def bindBlob (t : Track) (b : BlobInfo) : BlobInfo :=
  { id := (t.track_id : ℤ), contour := b.contour, bbox := b.bbox,
    center := b.center, area := b.area, polygon := b.polygon }

/-- Source: the `predicted_blob = BlobInfo(...)` branch — a rectangular
blob synthesized from the track's predicted box (`int()` truncation,
degenerate polygon = the four box corners). -/
def synthBlob (t : Track) : BlobInfo :=
  let bb := t.get_bbox
  let x := pyTrunc bb.x1
  let y := pyTrunc bb.y1
  let w := pyTrunc (bb.x2 - bb.x1)
  let h := pyTrunc (bb.y2 - bb.y1)
  { id := (t.track_id : ℤ),
    contour := [(x, y), (x + w, y), (x + w, y + h), (x, y + h)],
    bbox := (x, y, w, h),
    center := t.get_center,
    area := ((w * h : ℤ) : ℚ),
    polygon := [(x, y), (x + w, y), (x + w, y + h), (x, y + h)] }

/-- Source: the `for track in tracks` loop of
`_convert_tracks_to_blobs`, threading the `used_blobs` set.
Truthiness note: `best_blob` is a dataclass instance, always truthy, so
`if best_blob and min_distance < 100` tests exactly "some unused blob
exists and the minimum distance is `< 100`". -/
def convertLoop (blobs : List BlobInfo) :
    List Track → List ℕ → List BlobInfo × List ℕ
  | [], used => ([], used)
  | t :: ts, used =>
    match bestUnused t.get_center used blobs with
    | some (i, d2) =>
      if d2 < 10000 then
        let rest := convertLoop blobs ts (i :: used)
        (bindBlob t (blobs.getD i junkBlob) :: rest.1, rest.2)
      else
        let rest := convertLoop blobs ts used
        (synthBlob t :: rest.1, rest.2)
    | none =>
      let rest := convertLoop blobs ts used
      (synthBlob t :: rest.1, rest.2)

/-- Source: `ImageProcessor._convert_tracks_to_blobs(tracks,
original_blobs)`. -/
def convertTracksToBlobs (tracks : List Track) (blobs : List BlobInfo) : List BlobInfo :=
  (convertLoop blobs tracks []).1

/-- Specification relation for id reconciliation, written from the spec's
words (§4.6 / claim C6): one output record per track; a track binds the
closest not-yet-used original blob when its centroid (squared) distance
is below the association radius (marking it used), and otherwise a
rectangular blob is synthesized from the predicted box.  Compared with
the source-derived `convertLoop`. -/
inductive ReconRel (blobs : List BlobInfo) :
    List Track → List ℕ → List BlobInfo → List ℕ → Prop where
  | nil (used : List ℕ) : ReconRel blobs [] used [] used
  | bind (t : Track) (ts : List Track) (used : List ℕ) (i : ℕ) (outs : List BlobInfo)
      (used' : List ℕ) :
      i < blobs.length → i ∉ used →
      dist2q t.get_center (blobs.getD i junkBlob).center < 10000 →
      (∀ j, j < blobs.length → j ∉ used →
        dist2q t.get_center (blobs.getD i junkBlob).center ≤
          dist2q t.get_center (blobs.getD j junkBlob).center) →
      ReconRel blobs ts (i :: used) outs used' →
      ReconRel blobs (t :: ts) used (bindBlob t (blobs.getD i junkBlob) :: outs) used'
  | synth (t : Track) (ts : List Track) (used : List ℕ) (outs : List BlobInfo)
      (used' : List ℕ) :
      (∀ j, j < blobs.length → j ∉ used →
        10000 ≤ dist2q t.get_center (blobs.getD j junkBlob).center) →
      ReconRel blobs ts used outs used' →
      ReconRel blobs (t :: ts) used (synthBlob t :: outs) used'

/-! ### Embedding of `processor.py`: the fallback centroid tracker -/

/-- A detection for the fallback tracker: a `(cx, cy, area)` triple. -/
abbrev Det3 : Type := ℚ × ℚ × ℚ

/-- Center of a fallback detection triple. -/
def det3Center (d : Det3) : ℚ × ℚ := (d.1, d.2.1)

/-- Source: the per-id record of `BlobTracker.tracked_blobs`.  The
`last_seen` wall-clock timestamp (`time.time()`) is stored but never read
by any logic and is omitted from the embedding. -/
structure BlobEntry where
  center : ℚ × ℚ
  area : ℚ
  age : ℕ
deriving DecidableEq

/-- Placeholder entry pair for `List.getD`; never exercised on in-range
indices. -/
def junkEntryPair : ℕ × BlobEntry :=
  (0, { center := (0, 0), area := 0, age := 0 })

/-- Source: `BlobTracker.__init__` fields.  `tracked_blobs` is a Python
dict, embedded as an insertion-ordered association list (updating an
existing key keeps its position, a new key is appended — exactly the
Python 3.7+ dict contract). -/
structure BlobTrackerState where
  max_distance : ℚ
  max_age : ℕ
  next_id : ℕ
  tracked_blobs : List (ℕ × BlobEntry)
deriving DecidableEq

/-- Source: the aging pass at the top of `BlobTracker.update` — every
entry's age is incremented, then entries with `age > max_age` are
deleted. -/
def survOf (s : BlobTrackerState) : List (ℕ × BlobEntry) :=
  ((s.tracked_blobs.map fun kv => (kv.1, { kv.2 with age := kv.2.age + 1 })).filter
    fun kv => kv.2.age ≤ s.max_age)

/-- Source: the inner `for j in range(len(track_ids))` selection of
`_match_detections` — an entry is eligible when it is unused and its
distance is `<= max_distance` (the matrix holds `inf` otherwise, and
`inf` is never selected by the strict `<` test against `min_dist`);
among eligible entries the strictly closest (first minimum) wins. -/
def bestTrackAux (c : ℚ × ℚ) (maxD2 : ℚ) (used : List ℕ) :
    List (ℕ × BlobEntry) → ℕ → Option (ℕ × ℚ) → Option (ℕ × ℚ)
  | [], _, acc => acc
  | e :: es, j, acc =>
    if j ∈ used then bestTrackAux c maxD2 used es (j + 1) acc
    else
      let d2 := dist2q c e.2.center
      if d2 ≤ maxD2 then
        let acc' :=
          match acc with
          | none => some (j, d2)
          | some (bj, bd) => if d2 < bd then some (j, d2) else some (bj, bd)
        bestTrackAux c maxD2 used es (j + 1) acc'
      else bestTrackAux c maxD2 used es (j + 1) acc

/-- The full inner scan (`min_dist = inf`, `best_track_idx = -1` is the
`none` accumulator; `best_track_idx >= 0` is the `some` case). -/
def bestTrackFor (entries : List (ℕ × BlobEntry)) (maxD2 : ℚ) (used : List ℕ)
    (c : ℚ × ℚ) : Option ℕ :=
  (bestTrackAux c maxD2 used entries 0 none).map Prod.fst

/-- Source: the outer `for i in range(len(detections))` loop of
`_match_detections`: stop when every surviving entry is used, otherwise
match detection `i` to the best eligible entry (if any), recording
`assignments[i] = track_ids[j]` and marking `j` used. -/
def matchLoop (entries : List (ℕ × BlobEntry)) (maxD2 : ℚ) :
    List Det3 → ℕ → List ℕ → List (ℕ × ℕ)
  | [], _, _ => []
  | d :: ds, i, used =>
    if entries.length ≤ used.length then []
    else
      match bestTrackFor entries maxD2 used (det3Center d) with
      | some j => (i, (entries.getD j junkEntryPair).1) :: matchLoop entries maxD2 ds (i + 1) (j :: used)
      | none => matchLoop entries maxD2 ds (i + 1) used

/-- Source: `BlobTracker._match_detections` — empty dict or empty
detection list short-circuits to no assignments. -/
def matchDetections (entries : List (ℕ × BlobEntry)) (maxDist : ℚ)
    (dets : List Det3) : List (ℕ × ℕ) :=
  if entries = [] ∨ dets = [] then []
  else matchLoop entries (maxDist ^ 2) dets 0 []

/-- Lookup in the `assignments` dict (keyed by detection index). -/
def lookupNat (l : List (ℕ × ℕ)) (i : ℕ) : Option ℕ :=
  match l with
  | [] => none
  | (k, v) :: rest => if k = i then some v else lookupNat rest i

/-- Python dict write `d[k] = v`: replace in place when the key exists,
append otherwise. -/
def dictSet {α : Type} : List (ℕ × α) → ℕ → α → List (ℕ × α)
  | [], k, v => [(k, v)]
  | (k', v') :: rest, k, v =>
    if k' = k then (k, v) :: rest else (k', v') :: dictSet rest k v

/-- Source: the main `for i, (cx, cy, area) in enumerate(detections)` loop
of `BlobTracker.update` — matched detections refresh the existing entry
(age reset to 0), unmatched detections create a fresh id from the
monotone counter; both record the id in `active_tracks`. -/
def processDets (assigns : List (ℕ × ℕ)) :
    List Det3 → ℕ → List (ℕ × BlobEntry) → ℕ → List (ℕ × (ℚ × ℚ)) →
    List (ℕ × BlobEntry) × ℕ × List (ℕ × (ℚ × ℚ))
  | [], _, tracked, nid, active => (tracked, nid, active)
  | d :: ds, i, tracked, nid, active =>
    let e : BlobEntry := { center := det3Center d, area := d.2.2, age := 0 }
    match lookupNat assigns i with
    | some bid =>
      processDets assigns ds (i + 1) (dictSet tracked bid e) nid
        (dictSet active bid (det3Center d))
    | none =>
      processDets assigns ds (i + 1) (tracked ++ [(nid, e)]) (nid + 1)
        (dictSet active nid (det3Center d))

/-- Source: `BlobTracker.update` — age/evict, match, then the main loop;
returns the `active_tracks` mapping and the new state. -/
def blobUpdate (s : BlobTrackerState) (dets : List Det3) :
    List (ℕ × (ℚ × ℚ)) × BlobTrackerState :=
  let surv := survOf s
  let assigns := matchDetections surv s.max_distance dets
  let res := processDets assigns dets 0 surv s.next_id []
  (res.2.2, { s with tracked_blobs := res.1, next_id := res.2.1 })

/-- Source: `BlobTracker.reset`. -/
def blobReset (s : BlobTrackerState) : BlobTrackerState :=
  { s with tracked_blobs := [], next_id := 0 }

/-- Key-uniqueness invariant of the fallback tracker: dict keys are
distinct and below the id counter (holds at construction and is
preserved by `blobUpdate`). -/
def InvB (s : BlobTrackerState) : Prop :=
  (s.tracked_blobs.map Prod.fst).Nodup ∧
  ∀ k ∈ s.tracked_blobs.map Prod.fst, k < s.next_id

/-- The number of detections left unmatched by `assigns` (each spawns one
fresh id). -/
def freshCount (assigns : List (ℕ × ℕ)) : List Det3 → ℕ → ℕ
  | [], _ => 0
  | _ :: ds, i =>
    (if (lookupNat assigns i).isNone then 1 else 0) + freshCount assigns ds (i + 1)

/-- Specification relation for the fallback matcher, written from the
spec's words (§4.5 / claim C9): detections are processed in input order;
each is paired with a nearest not-yet-used surviving entry within
`max_distance` (squared comparisons, see the module comment), or left
unmatched when no unused entry is in range; matching stops once every
entry is used.  Compared with the source-derived `matchLoop`. -/
inductive MatchRel (entries : List (ℕ × BlobEntry)) (maxD2 : ℚ) :
    List Det3 → ℕ → List ℕ → List (ℕ × ℕ) → Prop where
  | nil (i : ℕ) (used : List ℕ) : MatchRel entries maxD2 [] i used []
  | exhausted (d : Det3) (ds : List Det3) (i : ℕ) (used : List ℕ) :
      entries.length ≤ used.length →
      MatchRel entries maxD2 (d :: ds) i used []
  | matched (d : Det3) (ds : List Det3) (i j : ℕ) (used : List ℕ)
      (rest : List (ℕ × ℕ)) :
      used.length < entries.length →
      j < entries.length → j ∉ used →
      dist2q (det3Center d) ((entries.getD j junkEntryPair).2.center) ≤ maxD2 →
      (∀ j', j' < entries.length → j' ∉ used →
        dist2q (det3Center d) ((entries.getD j' junkEntryPair).2.center) ≤ maxD2 →
        dist2q (det3Center d) ((entries.getD j junkEntryPair).2.center) ≤
          dist2q (det3Center d) ((entries.getD j' junkEntryPair).2.center)) →
      MatchRel entries maxD2 ds (i + 1) (j :: used) rest →
      MatchRel entries maxD2 (d :: ds) i used ((i, (entries.getD j junkEntryPair).1) :: rest)
  | unmatched (d : Det3) (ds : List Det3) (i : ℕ) (used : List ℕ)
      (rest : List (ℕ × ℕ)) :
      used.length < entries.length →
      (∀ j, j < entries.length → j ∉ used →
        maxD2 < dist2q (det3Center d) ((entries.getD j junkEntryPair).2.center)) →
      MatchRel entries maxD2 ds (i + 1) used rest →
      MatchRel entries maxD2 (d :: ds) i used rest

/-! ### Concrete scenario values used by the claim theorems -/

/-- A detection with box `(0, 0, 10, 10)` and score `0.9` (the concrete
scenario of spec §8). -/
def exDet : Detection :=
  { bbox := { x1 := 0, y1 := 0, x2 := 10, y2 := 10 }, score := 9/10 }

/-- A `3 × 3` detection (area 9, below the default `min_box_area` of
10). -/
def junkDetection3x3 : Detection :=
  { bbox := { x1 := 0, y1 := 0, x2 := 3, y2 := 3 }, score := 9/10 }

/-- The tracker constructed with its default parameters
(`track_thresh=0.5, track_buffer=30, match_thresh=0.8, min_box_area=10`). -/
def exInit : TrackerState := initState (1/2) 30 (8/10) 10

/-- A lost track with id 0 at box `(0, 0, 10, 10)`, zero velocity. -/
def exLostTrack : Track :=
  mkTrack 0 { x1 := 0, y1 := 0, x2 := 10, y2 := 10 } (9/10) TrackStateLOST 0 0 1

/-- A tracker state whose lost pool holds `exLostTrack` (id 0, counter at
1), as `BYTETracker.update`'s own algorithm is specified to produce after
one missed frame. -/
def exLostState : TrackerState :=
  { track_thresh := 1/2, track_buffer := 30, match_thresh := 8/10, min_box_area := 10,
    frame_id := 0, tracked_tracks := [], lost_tracks := [exLostTrack],
    removed_tracks := [], track_id_count := 1 }

/-! ### Helper lemmas -/

theorem mem_splitDetections_hi {minArea thresh : ℚ} {dets : List Detection} {d : Detection} :
    d ∈ (splitDetections minArea thresh dets).1 ↔
      d ∈ dets ∧ minArea ≤ (d.bbox.x2 - d.bbox.x1) * (d.bbox.y2 - d.bbox.y1) ∧
        thresh ≤ d.score := by
  induction dets with
  | nil => simp [splitDetections]
  | cons a as ih =>
    by_cases h1 : (a.bbox.x2 - a.bbox.x1) * (a.bbox.y2 - a.bbox.y1) ≥ minArea
    · by_cases h2 : a.score ≥ thresh
      · simp only [splitDetections, if_pos h1, if_pos h2, List.mem_cons, ih]
        constructor
        · rintro (rfl | ⟨hm, hp⟩)
          · exact ⟨Or.inl rfl, h1, h2⟩
          · exact ⟨Or.inr hm, hp⟩
        · rintro ⟨rfl | hm, hp⟩
          · exact Or.inl rfl
          · exact Or.inr ⟨hm, hp⟩
      · simp only [splitDetections, if_pos h1, if_neg h2, List.mem_cons, ih]
        constructor
        · rintro ⟨hm, hp⟩
          exact ⟨Or.inr hm, hp⟩
        · rintro ⟨rfl | hm, hp⟩
          · exact absurd hp.2 h2
          · exact ⟨hm, hp⟩
    · simp only [splitDetections, if_neg h1, List.mem_cons, ih]
      constructor
      · rintro ⟨hm, hp⟩
        exact ⟨Or.inr hm, hp⟩
      · rintro ⟨rfl | hm, hp⟩
        · exact absurd hp.1 h1
        · exact ⟨hm, hp⟩

theorem mem_splitDetections_lo {minArea thresh : ℚ} {dets : List Detection} {d : Detection} :
    d ∈ (splitDetections minArea thresh dets).2 ↔
      d ∈ dets ∧ minArea ≤ (d.bbox.x2 - d.bbox.x1) * (d.bbox.y2 - d.bbox.y1) ∧
        ¬ thresh ≤ d.score := by
  induction dets with
  | nil => simp [splitDetections]
  | cons a as ih =>
    by_cases h1 : (a.bbox.x2 - a.bbox.x1) * (a.bbox.y2 - a.bbox.y1) ≥ minArea
    · by_cases h2 : a.score ≥ thresh
      · simp only [splitDetections, if_pos h1, if_pos h2, List.mem_cons, ih]
        constructor
        · rintro ⟨hm, hp⟩
          exact ⟨Or.inr hm, hp⟩
        · rintro ⟨rfl | hm, hp⟩
          · exact absurd h2 hp.2
          · exact ⟨hm, hp⟩
      · simp only [splitDetections, if_pos h1, if_neg h2, List.mem_cons, ih]
        constructor
        · rintro (rfl | ⟨hm, hp⟩)
          · exact ⟨Or.inl rfl, h1, h2⟩
          · exact ⟨Or.inr hm, hp⟩
        · rintro ⟨rfl | hm, hp⟩
          · exact Or.inl rfl
          · exact Or.inr ⟨hm, hp⟩
    · simp only [splitDetections, if_neg h1, List.mem_cons, ih]
      constructor
      · rintro ⟨hm, hp⟩
        exact ⟨Or.inr hm, hp⟩
      · rintro ⟨rfl | hm, hp⟩
        · exact absurd hp.1 h1
        · exact ⟨hm, hp⟩

theorem splitDetections_hi_sublist (minArea thresh : ℚ) (dets : List Detection) :
    (splitDetections minArea thresh dets).1.Sublist dets := by
  induction dets with
  | nil => simp [splitDetections]
  | cons a as ih =>
    by_cases h1 : (a.bbox.x2 - a.bbox.x1) * (a.bbox.y2 - a.bbox.y1) ≥ minArea
    · by_cases h2 : a.score ≥ thresh
      · simpa only [splitDetections, if_pos h1, if_pos h2] using ih.cons₂ a
      · simpa only [splitDetections, if_pos h1, if_neg h2] using ih.cons a
    · simpa only [splitDetections, if_neg h1] using ih.cons a

theorem splitDetections_lo_sublist (minArea thresh : ℚ) (dets : List Detection) :
    (splitDetections minArea thresh dets).2.Sublist dets := by
  induction dets with
  | nil => simp [splitDetections]
  | cons a as ih =>
    by_cases h1 : (a.bbox.x2 - a.bbox.x1) * (a.bbox.y2 - a.bbox.y1) ≥ minArea
    · by_cases h2 : a.score ≥ thresh
      · simpa only [splitDetections, if_pos h1, if_pos h2] using ih.cons a
      · simpa only [splitDetections, if_pos h1, if_neg h2] using ih.cons₂ a
    · simpa only [splitDetections, if_neg h1] using ih.cons a

theorem modifyAt_map {α β : Type} (g : α → β) (f : α → α)
    (hf : ∀ x, g (f x) = g x) :
    ∀ (l : List α) (i : ℕ), (modifyAt l i f).map g = l.map g
  | [], _ => rfl
  | x :: xs, 0 => by simp [modifyAt, hf]
  | x :: xs, n + 1 => by simp [modifyAt, modifyAt_map g f hf xs n]

theorem idsOf_applyMatches (fid : ℤ) (dets : List Detection) :
    ∀ (pairs : List (ℕ × ℕ)) (l : List Track),
      idsOf (applyMatches fid dets pairs l) = idsOf l
  | [], _ => rfl
  | p :: ps, l => by
    have h1 : applyMatches fid dets (p :: ps) l
        = applyMatches fid dets ps
            (modifyAt l p.1 (matchedUpdate fid (dets.getD p.2 junkDetection))) := by
      simp [applyMatches]
    rw [h1, idsOf_applyMatches fid dets ps]
    exact modifyAt_map Track.track_id (matchedUpdate fid (dets.getD p.2 junkDetection))
      (fun _ => rfl) l p.1

theorem idsOf_applyMatchesVia (fid : ℤ) (dets : List Detection) (idxMap : List ℕ) :
    ∀ (pairs : List (ℕ × ℕ)) (l : List Track),
      idsOf (applyMatchesVia fid dets idxMap pairs l) = idsOf l
  | [], _ => rfl
  | p :: ps, l => by
    have h1 : applyMatchesVia fid dets idxMap (p :: ps) l
        = applyMatchesVia fid dets idxMap ps
            (match idxMap.get? p.1 with
             | some i => modifyAt l i (matchedUpdate fid (dets.getD p.2 junkDetection))
             | none => l) := by
      simp only [applyMatchesVia, List.foldl_cons]
    rw [h1, idsOf_applyMatchesVia fid dets idxMap ps]
    cases hg : idxMap.get? p.1 with
    | none => rfl
    | some i =>
      exact modifyAt_map Track.track_id (matchedUpdate fid (dets.getD p.2 junkDetection))
        (fun _ => rfl) l i

theorem idsOf_markLost (idxMap : List ℕ) :
    ∀ (idxs : List ℕ) (l : List Track), idsOf (markLost idxMap idxs l) = idsOf l
  | [], _ => rfl
  | j :: js, l => by
    have h1 : markLost idxMap (j :: js) l
        = markLost idxMap js
            (match idxMap.get? j with
             | some i => modifyAt l i (fun t => { t with state := TrackStateLOST })
             | none => l) := by
      simp only [markLost, List.foldl_cons]
    rw [h1, idsOf_markLost idxMap js]
    cases hg : idxMap.get? j with
    | none => rfl
    | some i =>
      exact modifyAt_map Track.track_id (fun t => { t with state := TrackStateLOST })
        (fun _ => rfl) l i

theorem idsOf_map_predict (l : List Track) : idsOf (l.map Track.predict) = idsOf l := by
  simp only [idsOf, List.map_map]
  rfl

theorem idsOf_mkNewTracks (thresh : ℚ) (fid : ℤ) :
    ∀ (rem : List Detection) (cnt : ℕ),
      idsOf (mkNewTracks thresh cnt fid rem)
        = List.range' cnt (mkNewTracks thresh cnt fid rem).length
  | [], _ => rfl
  | d :: ds, cnt => by
    by_cases h : d.score ≥ thresh
    · simp only [mkNewTracks, if_pos h, idsOf, List.map_cons, List.length_cons,
        List.range'_succ]
      exact congrArg _ (idsOf_mkNewTracks thresh fid ds (cnt + 1))
    · simp only [mkNewTracks, if_neg h]
      exact idsOf_mkNewTracks thresh fid ds cnt

theorem filter_tracked_then_lost (l : List Track) :
    (l.filter (fun t => t.state == TrackStateTRACKED)).filter
      (fun t => t.state == TrackStateLOST) = [] := by
  rw [List.filter_filter]
  rw [List.filter_eq_nil_iff]
  intro t _
  simp only [TrackStateLOST, TrackStateTRACKED, Bool.and_eq_true, beq_iff_eq]
  omega

theorem idsOf_tracked4Of (s : TrackerState) (dets : List Detection) :
    idsOf (tracked4Of s dets) = idsOf s.tracked_tracks := by
  unfold tracked4Of step2Of
  by_cases h : lowOf s dets = []
  · rw [if_pos h]
    rw [idsOf_markLost, tracked2Of, idsOf_applyMatches, predictedOf, idsOf_map_predict]
  · rw [if_neg h]
    rw [idsOf_markLost, idsOf_applyMatchesVia, tracked2Of, idsOf_applyMatches,
      predictedOf, idsOf_map_predict]

/-- The lost-pool bug, as an invariant: line 257 extends the lost pool
from an already-Tracked-filtered list, so a state with an empty lost
pool keeps it empty through `update`. -/
theorem lost1Of_eq_nil (s : TrackerState) (dets : List Detection)
    (hl : s.lost_tracks = []) : lost1Of s dets = [] := by
  rw [lost1Of, hl, List.nil_append, tracked6Of, filter_tracked_then_lost]

theorem step8Of_eq (s : TrackerState) (dets : List Detection)
    (hl : s.lost_tracks = []) : step8Of s dets = (tracked6Of s dets, []) := by
  rw [step8Of, lost1Of_eq_nil s dets hl]
  simp

/-- Characterization of `updateFull` on a state with an empty lost pool
(every reachable state, by `reachable_inv` below): the lost pool stays
empty, nothing is removed, and the new tracked pool is the
Tracked-filter of the mutated old tracks followed by the created
tracks. -/
theorem updateFull_char (s : TrackerState) (dets : List Detection)
    (hl : s.lost_tracks = []) :
    updateFull s dets =
      ((tracked6Of s dets).filter (fun t => t.state == TrackStateTRACKED),
       { s with frame_id := s.frame_id + 1, tracked_tracks := tracked6Of s dets,
                lost_tracks := [], removed_tracks := s.removed_tracks,
                track_id_count := s.track_id_count + (createdOf s dets).length },
       createdOf s dets) := by
  rw [updateFull]
  simp only [step8Of_eq s dets hl, List.filter_nil, pruneLost, List.append_nil]

/-- One `update` step preserves the pool invariant: the lost and removed
pools stay empty, the tracked ids stay distinct and below the counter,
the counter advances by the number of created tracks, the created
tracks' ids are exactly `track_id_count, track_id_count + 1, …` in
creation order, and every surviving id is an old id or a created id. -/
theorem update_inv_step (s : TrackerState) (dets : List Detection)
    (hl : s.lost_tracks = []) (hr : s.removed_tracks = [])
    (hn : (idsOf s.tracked_tracks).Nodup)
    (hb : ∀ i ∈ idsOf s.tracked_tracks, i < s.track_id_count) :
    (update s dets).2.lost_tracks = [] ∧
    (update s dets).2.removed_tracks = [] ∧
    (idsOf (update s dets).2.tracked_tracks).Nodup ∧
    (∀ i ∈ idsOf (update s dets).2.tracked_tracks, i < (update s dets).2.track_id_count) ∧
    (update s dets).2.track_id_count = s.track_id_count + (newTracksOf s dets).length ∧
    idsOf (newTracksOf s dets)
      = List.range' s.track_id_count (newTracksOf s dets).length ∧
    (∀ i ∈ idsOf (update s dets).2.tracked_tracks,
      i ∈ idsOf s.tracked_tracks ∨ i ∈ idsOf (newTracksOf s dets)) := by
  have hchar := updateFull_char s dets hl
  have hupd : (update s dets).2
      = { s with frame_id := s.frame_id + 1, tracked_tracks := tracked6Of s dets,
                 lost_tracks := [], removed_tracks := s.removed_tracks,
                 track_id_count := s.track_id_count + (createdOf s dets).length } := by
    rw [update, hchar]
  have hnew : newTracksOf s dets = createdOf s dets := by
    rw [newTracksOf, hchar]
  have hcre : idsOf (createdOf s dets)
      = List.range' s.track_id_count (createdOf s dets).length := by
    rw [createdOf]
    exact idsOf_mkNewTracks _ _ _ _
  have happ : idsOf (tracked4Of s dets ++ createdOf s dets)
      = idsOf s.tracked_tracks ++ idsOf (createdOf s dets) := by
    rw [idsOf, List.map_append, ← idsOf, ← idsOf, idsOf_tracked4Of]
  have hsub : (idsOf (tracked6Of s dets)).Sublist
      (idsOf s.tracked_tracks ++ idsOf (createdOf s dets)) := by
    rw [← happ]
    exact (List.filter_sublist _).map Track.track_id
  have hmem6 : ∀ i ∈ idsOf (tracked6Of s dets),
      i ∈ idsOf s.tracked_tracks ∨ i ∈ idsOf (createdOf s dets) := by
    intro i hi
    have := hsub.mem hi
    exact List.mem_append.1 this
  have hdisj : (idsOf s.tracked_tracks).Disjoint (idsOf (createdOf s dets)) := by
    intro x hx hx'
    rw [hcre, List.mem_range'_1] at hx'
    exact absurd (hb x hx) (not_lt.2 hx'.1)
  have hnodup6 : (idsOf (tracked6Of s dets)).Nodup := by
    refine hsub.nodup (List.Nodup.append hn ?_ hdisj)
    rw [hcre]
    exact List.nodup_range' _ _
  refine ⟨by rw [hupd], by rw [hupd]; exact hr, by rw [hupd]; exact hnodup6, ?_, ?_, ?_, ?_⟩
  · intro i hi
    rw [hupd] at hi ⊢
    rcases hmem6 i hi with h | h
    · exact lt_of_lt_of_le (hb i h) (Nat.le_add_right _ _)
    · rw [hcre, List.mem_range'_1] at h
      exact h.2
  · rw [hupd, hnew]
  · rw [hnew]
    exact hcre
  · intro i hi
    rw [hupd] at hi
    rw [hnew]
    exact hmem6 i hi

/-- Invariant of every reachable tracker state: the lost and removed
pools are empty (a consequence of the line-256/257 bug), and the tracked
ids are pairwise distinct and below the id counter. -/
theorem reachable_inv (tt : ℚ) (tb : ℤ) (mt mba : ℚ) (s : TrackerState)
    (h : Reachable tt tb mt mba s) :
    s.lost_tracks = [] ∧ s.removed_tracks = [] ∧
    (idsOf s.tracked_tracks).Nodup ∧
    ∀ i ∈ idsOf s.tracked_tracks, i < s.track_id_count := by
  induction h with
  | init => exact ⟨rfl, rfl, List.nodup_nil, by simp [initState, idsOf]⟩
  | step s dets _ ih =>
    obtain ⟨hl, hr, hn, hb⟩ := ih
    obtain ⟨h1, h2, h3, h4, _, _, _⟩ := update_inv_step s dets hl hr hn hb
    exact ⟨h1, h2, h3, h4⟩
  | reset s _ _ => exact ⟨rfl, rfl, List.nodup_nil, by simp [resetState, idsOf]⟩

theorem bestUnusedAux_ne_none (c : ℚ × ℚ) (used : List ℕ) :
    ∀ (bs : List BlobInfo) (k : ℕ) (x : ℕ × ℚ),
      bestUnusedAux c used bs k (some x) ≠ none
  | [], _, _ => by simp [bestUnusedAux]
  | b :: bs, k, x => by
    by_cases hk : k ∈ used
    · rw [bestUnusedAux, if_pos hk]
      exact bestUnusedAux_ne_none c used bs (k + 1) x
    · rw [bestUnusedAux, if_neg hk]
      obtain ⟨xi, xd⟩ := x
      by_cases hlt : dist2q c b.center < xd
      · simp only [if_pos hlt]
        exact bestUnusedAux_ne_none c used bs (k + 1) _
      · simp only [if_neg hlt]
        exact bestUnusedAux_ne_none c used bs (k + 1) _

theorem bestUnusedAux_none (c : ℚ × ℚ) (used : List ℕ) :
    ∀ (bs : List BlobInfo) (k : ℕ) (acc : Option (ℕ × ℚ)),
      bestUnusedAux c used bs k acc = none →
      acc = none ∧ ∀ j, k ≤ j → j - k < bs.length → j ∈ used
  | [], k, acc => by
    intro h
    exact ⟨h, fun j _ hj => absurd hj (by simp)⟩
  | b :: bs, k, acc => by
    intro h
    by_cases hk : k ∈ used
    · rw [bestUnusedAux, if_pos hk] at h
      obtain ⟨hacc, hall⟩ := bestUnusedAux_none c used bs (k + 1) acc h
      refine ⟨hacc, fun j hkj hj => ?_⟩
      have hlen : (b :: bs).length = bs.length + 1 := rfl
      rw [hlen] at hj
      rcases Nat.eq_or_lt_of_le hkj with rfl | hlt
      · exact hk
      · exact hall j hlt (by omega)
    · rw [bestUnusedAux, if_neg hk] at h
      exact absurd h (by
        cases acc with
        | none => exact bestUnusedAux_ne_none c used bs (k + 1) _
        | some x =>
          obtain ⟨xi, xd⟩ := x
          by_cases hlt : dist2q c b.center < xd
          · simp only [if_pos hlt]
            exact bestUnusedAux_ne_none c used bs (k + 1) _
          · simp only [if_neg hlt]
            exact bestUnusedAux_ne_none c used bs (k + 1) _)

theorem bestUnusedAux_some (c : ℚ × ℚ) (used : List ℕ) :
    ∀ (bs : List BlobInfo) (k : ℕ) (acc : Option (ℕ × ℚ)) (i : ℕ) (d2 : ℚ),
      bestUnusedAux c used bs k acc = some (i, d2) →
      (acc = some (i, d2) ∨
        (k ≤ i ∧ i - k < bs.length ∧ i ∉ used ∧
          d2 = dist2q c ((bs.getD (i - k) junkBlob).center))) ∧
      (∀ pi pd, acc = some (pi, pd) → d2 ≤ pd) ∧
      (∀ j, k ≤ j → j - k < bs.length → j ∉ used →
        d2 ≤ dist2q c ((bs.getD (j - k) junkBlob).center))
  | [], k, acc, i, d2 => by
    intro h
    rw [bestUnusedAux] at h
    exact ⟨Or.inl h, fun pi pd hpd => by rw [hpd] at h; cases h; rfl,
      fun j _ hj => absurd hj (by simp)⟩
  | b :: bs, k, acc, i, d2 => by
    intro h
    have hlen : (b :: bs).length = bs.length + 1 := rfl
    by_cases hk : k ∈ used
    · rw [bestUnusedAux, if_pos hk] at h
      obtain ⟨hprov, hacc, hmin⟩ := bestUnusedAux_some c used bs (k + 1) acc i d2 h
      refine ⟨?_, hacc, ?_⟩
      · rcases hprov with h1 | ⟨h1, h2, h3, h4⟩
        · exact Or.inl h1
        · refine Or.inr ⟨by omega, by rw [hlen]; omega, h3, ?_⟩
          rw [h4]
          have harith : i - k = (i - (k + 1)) + 1 := by omega
          rw [harith]
          rfl
      · intro j hkj hj hju
        rw [hlen] at hj
        rcases Nat.eq_or_lt_of_le hkj with rfl | hlt
        · exact absurd hk hju
        · have hres := hmin j hlt (by omega) hju
          have harith : j - k = (j - (k + 1)) + 1 := by omega
          rw [harith]
          exact hres
    · rw [bestUnusedAux, if_neg hk] at h
      -- the accumulator after inspecting index `k`
      have main : ∀ (i0 : ℕ) (d0 : ℚ),
          bestUnusedAux c used bs (k + 1) (some (i0, d0)) = some (i, d2) →
          d0 ≤ dist2q c b.center →
          (some (i0, d0) = acc ∨ (i0 = k ∧ d0 = dist2q c b.center)) →
          (∀ pi pd, acc = some (pi, pd) → d0 ≤ pd) →
          (acc = some (i, d2) ∨
            (k ≤ i ∧ i - k < (b :: bs).length ∧ i ∉ used ∧
              d2 = dist2q c (((b :: bs).getD (i - k) junkBlob).center))) ∧
          (∀ pi pd, acc = some (pi, pd) → d2 ≤ pd) ∧
          (∀ j, k ≤ j → j - k < (b :: bs).length → j ∉ used →
            d2 ≤ dist2q c (((b :: bs).getD (j - k) junkBlob).center)) := by
        intro i0 d0 hrec hd0b hprov0 hacc0
        obtain ⟨hprov, haccle, hmin⟩ := bestUnusedAux_some c used bs (k + 1) (some (i0, d0)) i d2 hrec
        have hd20 : d2 ≤ d0 := haccle i0 d0 rfl
        have hd2b : d2 ≤ dist2q c b.center := le_trans hd20 hd0b
        refine ⟨?_, fun pi pd hpd => le_trans hd20 (hacc0 pi pd hpd), ?_⟩
        · rcases hprov with h1 | ⟨h1, h2, h3, h4⟩
          · -- the result is the stepped accumulator itself
            cases h1
            rcases hprov0 with h5 | ⟨h5, h6⟩
            · exact Or.inl h5.symm
            · subst h5
              refine Or.inr ⟨le_refl _, by rw [hlen]; omega, hk, ?_⟩
              simpa using h6
          · refine Or.inr ⟨by omega, by rw [hlen]; omega, h3, ?_⟩
            rw [h4]
            have harith : i - k = (i - (k + 1)) + 1 := by omega
            rw [harith]
            rfl
        · intro j hkj hj hju
          rw [hlen] at hj
          rcases Nat.eq_or_lt_of_le hkj with rfl | hlt
          · simpa using hd2b
          · have hres := hmin j hlt (by omega) hju
            have harith : j - k = (j - (k + 1)) + 1 := by omega
            rw [harith]
            exact hres
      rcases Option.eq_none_or_eq_some acc with hacc | ⟨⟨pi0, pd0⟩, hacc⟩
      · rw [hacc] at h
        replace h : bestUnusedAux c used bs (k + 1)
            (some (k, dist2q c b.center)) = some (i, d2) := h
        exact main k (dist2q c b.center) h (le_refl _) (Or.inr ⟨rfl, rfl⟩)
          (fun pi pd hpd => by rw [hacc] at hpd; exact Option.noConfusion hpd)
      · rw [hacc] at h
        replace h : bestUnusedAux c used bs (k + 1)
            (if dist2q c b.center < pd0 then some (k, dist2q c b.center)
             else some (pi0, pd0)) = some (i, d2) := h
        by_cases hlt : dist2q c b.center < pd0
        · rw [if_pos hlt] at h
          refine main k (dist2q c b.center) h (le_refl _) (Or.inr ⟨rfl, rfl⟩) ?_
          intro pi pd hpd
          rw [hacc] at hpd
          cases hpd
          exact le_of_lt hlt
        · rw [if_neg hlt] at h
          refine main pi0 pd0 h (le_of_not_lt hlt) (Or.inl hacc.symm) ?_
          intro pi pd hpd
          rw [hacc] at hpd
          cases hpd
          exact le_refl _

theorem convertLoop_rel (blobs : List BlobInfo) :
    ∀ (ts : List Track) (used : List ℕ),
      ReconRel blobs ts used (convertLoop blobs ts used).1 (convertLoop blobs ts used).2 ∧
      (convertLoop blobs ts used).1.length = ts.length
  | [], used => ⟨ReconRel.nil used, rfl⟩
  | t :: ts, used => by
    rw [convertLoop]
    cases hb : bestUnused t.get_center used blobs with
    | none =>
      obtain ⟨_, hall⟩ := bestUnusedAux_none t.get_center used blobs 0 none hb
      have hsynth : ∀ j, j < blobs.length → j ∉ used →
          10000 ≤ dist2q t.get_center ((blobs.getD j junkBlob).center) := by
        intro j hj hju
        exact absurd (hall j (Nat.zero_le j) (by simpa using hj)) hju
      obtain ⟨hrel, hlen⟩ := convertLoop_rel blobs ts used
      exact ⟨ReconRel.synth t ts used _ _ hsynth hrel, by simp [hlen]⟩
    | some x =>
      obtain ⟨i, d2⟩ := x
      obtain ⟨hprov, _, hmin⟩ := bestUnusedAux_some t.get_center used blobs 0 none i d2 hb
      rcases hprov with h1 | ⟨_, hlt, hu, hd⟩
      · exact Option.noConfusion h1
      rw [Nat.sub_zero] at hlt hd
      dsimp only
      by_cases hrad : d2 < 10000
      · rw [if_pos hrad]
        obtain ⟨hrel, hlen⟩ := convertLoop_rel blobs ts (i :: used)
        refine ⟨ReconRel.bind t ts used i _ _ hlt hu (hd ▸ hrad) ?_ hrel, by simp [hlen]⟩
        intro j hj hju
        have := hmin j (Nat.zero_le j) (by simpa using hj) hju
        rw [Nat.sub_zero] at this
        rw [← hd]
        exact this
      · rw [if_neg hrad]
        obtain ⟨hrel, hlen⟩ := convertLoop_rel blobs ts used
        refine ⟨ReconRel.synth t ts used _ _ ?_ hrel, by simp [hlen]⟩
        intro j hj hju
        have := hmin j (Nat.zero_le j) (by simpa using hj) hju
        rw [Nat.sub_zero] at this
        exact le_trans (le_of_not_lt hrad) this

theorem bestTrackAux_ne_none (c : ℚ × ℚ) (maxD2 : ℚ) (used : List ℕ) :
    ∀ (es : List (ℕ × BlobEntry)) (k : ℕ) (x : ℕ × ℚ),
      bestTrackAux c maxD2 used es k (some x) ≠ none
  | [], _, _ => by simp [bestTrackAux]
  | e :: es, k, x => by
    by_cases hk : k ∈ used
    · rw [bestTrackAux, if_pos hk]
      exact bestTrackAux_ne_none c maxD2 used es (k + 1) x
    · rw [bestTrackAux, if_neg hk]
      by_cases hel : dist2q c e.2.center ≤ maxD2
      · simp only [if_pos hel]
        obtain ⟨xi, xd⟩ := x
        by_cases hlt : dist2q c e.2.center < xd
        · simp only [if_pos hlt]
          exact bestTrackAux_ne_none c maxD2 used es (k + 1) _
        · simp only [if_neg hlt]
          exact bestTrackAux_ne_none c maxD2 used es (k + 1) _
      · simp only [if_neg hel]
        exact bestTrackAux_ne_none c maxD2 used es (k + 1) x

theorem bestTrackAux_none (c : ℚ × ℚ) (maxD2 : ℚ) (used : List ℕ) :
    ∀ (es : List (ℕ × BlobEntry)) (k : ℕ) (acc : Option (ℕ × ℚ)),
      bestTrackAux c maxD2 used es k acc = none →
      acc = none ∧ ∀ j, k ≤ j → j - k < es.length → j ∉ used →
        maxD2 < dist2q c ((es.getD (j - k) junkEntryPair).2.center)
  | [], k, acc => by
    intro h
    exact ⟨h, fun j _ hj => absurd hj (by simp)⟩
  | e :: es, k, acc => by
    intro h
    have hlen : (e :: es).length = es.length + 1 := rfl
    by_cases hk : k ∈ used
    · rw [bestTrackAux, if_pos hk] at h
      obtain ⟨hacc, hall⟩ := bestTrackAux_none c maxD2 used es (k + 1) acc h
      refine ⟨hacc, fun j hkj hj hju => ?_⟩
      rw [hlen] at hj
      rcases Nat.eq_or_lt_of_le hkj with rfl | hlt
      · exact absurd hk hju
      · have hres := hall j hlt (by omega) hju
        have harith : j - k = (j - (k + 1)) + 1 := by omega
        rw [harith]
        exact hres
    · rw [bestTrackAux, if_neg hk] at h
      by_cases hel : dist2q c e.2.center ≤ maxD2
      · exfalso
        revert h
        simp only [if_pos hel]
        cases acc with
        | none => exact bestTrackAux_ne_none c maxD2 used es (k + 1) _
        | some x =>
          obtain ⟨xi, xd⟩ := x
          by_cases hlt : dist2q c e.2.center < xd
          · simp only [if_pos hlt]
            exact bestTrackAux_ne_none c maxD2 used es (k + 1) _
          · simp only [if_neg hlt]
            exact bestTrackAux_ne_none c maxD2 used es (k + 1) _
      · rw [if_neg hel] at h
        obtain ⟨hacc, hall⟩ := bestTrackAux_none c maxD2 used es (k + 1) acc h
        refine ⟨hacc, fun j hkj hj hju => ?_⟩
        rw [hlen] at hj
        rcases Nat.eq_or_lt_of_le hkj with rfl | hlt
        · simpa using lt_of_not_le hel
        · have hres := hall j hlt (by omega) hju
          have harith : j - k = (j - (k + 1)) + 1 := by omega
          rw [harith]
          exact hres

theorem bestTrackAux_some (c : ℚ × ℚ) (maxD2 : ℚ) (used : List ℕ) :
    ∀ (es : List (ℕ × BlobEntry)) (k : ℕ) (acc : Option (ℕ × ℚ)) (j0 : ℕ) (d2 : ℚ),
      bestTrackAux c maxD2 used es k acc = some (j0, d2) →
      (acc = some (j0, d2) ∨
        (k ≤ j0 ∧ j0 - k < es.length ∧ j0 ∉ used ∧
          d2 = dist2q c ((es.getD (j0 - k) junkEntryPair).2.center) ∧ d2 ≤ maxD2)) ∧
      (∀ pi pd, acc = some (pi, pd) → d2 ≤ pd) ∧
      (∀ j, k ≤ j → j - k < es.length → j ∉ used →
        dist2q c ((es.getD (j - k) junkEntryPair).2.center) ≤ maxD2 →
        d2 ≤ dist2q c ((es.getD (j - k) junkEntryPair).2.center))
  | [], k, acc, j0, d2 => by
    intro h
    rw [bestTrackAux] at h
    exact ⟨Or.inl h, fun pi pd hpd => by rw [hpd] at h; cases h; rfl,
      fun j _ hj => absurd hj (by simp)⟩
  | e :: es, k, acc, j0, d2 => by
    intro h
    have hlen : (e :: es).length = es.length + 1 := rfl
    by_cases hk : k ∈ used
    · rw [bestTrackAux, if_pos hk] at h
      obtain ⟨hprov, hacc, hmin⟩ := bestTrackAux_some c maxD2 used es (k + 1) acc j0 d2 h
      refine ⟨?_, hacc, ?_⟩
      · rcases hprov with h1 | ⟨h1, h2, h3, h4, h5⟩
        · exact Or.inl h1
        · refine Or.inr ⟨by omega, by rw [hlen]; omega, h3, ?_, h5⟩
          rw [h4]
          have harith : j0 - k = (j0 - (k + 1)) + 1 := by omega
          rw [harith]
          rfl
      · intro j hkj hj hju hel
        rw [hlen] at hj
        rcases Nat.eq_or_lt_of_le hkj with rfl | hlt
        · exact absurd hk hju
        · have harith : j - k = (j - (k + 1)) + 1 := by omega
          rw [harith] at hel ⊢
          exact hmin j hlt (by omega) hju hel
    · rw [bestTrackAux, if_neg hk] at h
      by_cases hel0 : dist2q c e.2.center ≤ maxD2
      · -- index `k` is eligible: the accumulator is stepped
        have main : ∀ (i0 : ℕ) (d0 : ℚ),
            bestTrackAux c maxD2 used es (k + 1) (some (i0, d0)) = some (j0, d2) →
            d0 ≤ dist2q c e.2.center →
            (some (i0, d0) = acc ∨ (i0 = k ∧ d0 = dist2q c e.2.center)) →
            (∀ pi pd, acc = some (pi, pd) → d0 ≤ pd) →
            (acc = some (j0, d2) ∨
              (k ≤ j0 ∧ j0 - k < (e :: es).length ∧ j0 ∉ used ∧
                d2 = dist2q c (((e :: es).getD (j0 - k) junkEntryPair).2.center) ∧
                d2 ≤ maxD2)) ∧
            (∀ pi pd, acc = some (pi, pd) → d2 ≤ pd) ∧
            (∀ j, k ≤ j → j - k < (e :: es).length → j ∉ used →
              dist2q c (((e :: es).getD (j - k) junkEntryPair).2.center) ≤ maxD2 →
              d2 ≤ dist2q c (((e :: es).getD (j - k) junkEntryPair).2.center)) := by
          intro i0 d0 hrec hd0b hprov0 hacc0
          obtain ⟨hprov, haccle, hmin⟩ :=
            bestTrackAux_some c maxD2 used es (k + 1) (some (i0, d0)) j0 d2 hrec
          have hd20 : d2 ≤ d0 := haccle i0 d0 rfl
          have hd2b : d2 ≤ dist2q c e.2.center := le_trans hd20 hd0b
          refine ⟨?_, fun pi pd hpd => le_trans hd20 (hacc0 pi pd hpd), ?_⟩
          · rcases hprov with h1 | ⟨h1, h2, h3, h4, h5⟩
            · cases h1
              rcases hprov0 with h5 | ⟨h5, h6⟩
              · exact Or.inl h5.symm
              · subst h5
                refine Or.inr ⟨le_refl _, by rw [hlen]; omega, hk, ?_, by rw [h6]; exact hel0⟩
                simpa using h6
            · refine Or.inr ⟨by omega, by rw [hlen]; omega, h3, ?_, h5⟩
              rw [h4]
              have harith : j0 - k = (j0 - (k + 1)) + 1 := by omega
              rw [harith]
              rfl
          · intro j hkj hj hju hel
            rw [hlen] at hj
            rcases Nat.eq_or_lt_of_le hkj with rfl | hlt
            · simpa using hd2b
            · have harith : j - k = (j - (k + 1)) + 1 := by omega
              rw [harith] at hel ⊢
              exact hmin j hlt (by omega) hju hel
        rcases Option.eq_none_or_eq_some acc with hacc | ⟨⟨pi0, pd0⟩, hacc⟩
        · rw [hacc] at h
          replace h : bestTrackAux c maxD2 used es (k + 1)
              (some (k, dist2q c e.2.center)) = some (j0, d2) := by
            rw [← h]
            simp only [if_pos hel0]
          exact main k (dist2q c e.2.center) h (le_refl _) (Or.inr ⟨rfl, rfl⟩)
            (fun pi pd hpd => by rw [hacc] at hpd; exact Option.noConfusion hpd)
        · rw [hacc] at h
          replace h : bestTrackAux c maxD2 used es (k + 1)
              (if dist2q c e.2.center < pd0 then some (k, dist2q c e.2.center)
               else some (pi0, pd0)) = some (j0, d2) := by
            rw [← h]
            simp only [if_pos hel0]
          by_cases hlt : dist2q c e.2.center < pd0
          · rw [if_pos hlt] at h
            refine main k (dist2q c e.2.center) h (le_refl _) (Or.inr ⟨rfl, rfl⟩) ?_
            intro pi pd hpd
            rw [hacc] at hpd
            cases hpd
            exact le_of_lt hlt
          · rw [if_neg hlt] at h
            refine main pi0 pd0 h (le_of_not_lt hlt) (Or.inl hacc.symm) ?_
            intro pi pd hpd
            rw [hacc] at hpd
            cases hpd
            exact le_refl _
      · rw [if_neg hel0] at h
        obtain ⟨hprov, hacc, hmin⟩ := bestTrackAux_some c maxD2 used es (k + 1) acc j0 d2 h
        refine ⟨?_, hacc, ?_⟩
        · rcases hprov with h1 | ⟨h1, h2, h3, h4, h5⟩
          · exact Or.inl h1
          · refine Or.inr ⟨by omega, by rw [hlen]; omega, h3, ?_, h5⟩
            rw [h4]
            have harith : j0 - k = (j0 - (k + 1)) + 1 := by omega
            rw [harith]
            rfl
        · intro j hkj hj hju hel
          rw [hlen] at hj
          rcases Nat.eq_or_lt_of_le hkj with rfl | hlt
          · exact absurd (by simpa using hel) hel0
          · have harith : j - k = (j - (k + 1)) + 1 := by omega
            rw [harith] at hel ⊢
            exact hmin j hlt (by omega) hju hel

theorem matchLoop_rel (entries : List (ℕ × BlobEntry)) (maxD2 : ℚ) :
    ∀ (ds : List Det3) (i : ℕ) (used : List ℕ),
      MatchRel entries maxD2 ds i used (matchLoop entries maxD2 ds i used)
  | [], i, used => MatchRel.nil i used
  | d :: ds, i, used => by
    rw [matchLoop]
    by_cases hbreak : entries.length ≤ used.length
    · rw [if_pos hbreak]
      exact MatchRel.exhausted d ds i used hbreak
    · rw [if_neg hbreak]
      cases hb : bestTrackFor entries maxD2 used (det3Center d) with
      | none =>
        rw [bestTrackFor] at hb
        have haux : bestTrackAux (det3Center d) maxD2 used entries 0 none = none := by
          cases haux : bestTrackAux (det3Center d) maxD2 used entries 0 none with
          | none => rfl
          | some x =>
            rw [haux] at hb
            exact Option.noConfusion hb
        obtain ⟨_, hall⟩ := bestTrackAux_none (det3Center d) maxD2 used entries 0 none haux
        refine MatchRel.unmatched d ds i used _ (lt_of_not_le hbreak) ?_
          (matchLoop_rel entries maxD2 ds (i + 1) used)
        intro j hj hju
        have := hall j (Nat.zero_le j) (by simpa using hj) hju
        simpa using this
      | some j =>
        rw [bestTrackFor] at hb
        obtain ⟨d2, haux⟩ : ∃ d2, bestTrackAux (det3Center d) maxD2 used entries 0 none
            = some (j, d2) := by
          cases haux : bestTrackAux (det3Center d) maxD2 used entries 0 none with
          | none =>
            rw [haux] at hb
            exact Option.noConfusion hb
          | some x =>
            rw [haux] at hb
            obtain ⟨xj, xd⟩ := x
            cases hb
            exact ⟨xd, rfl⟩
        obtain ⟨hprov, _, hmin⟩ :=
          bestTrackAux_some (det3Center d) maxD2 used entries 0 none j d2 haux
        rcases hprov with h1 | ⟨_, hjlen, hju, hd, hel⟩
        · exact Option.noConfusion h1
        rw [Nat.sub_zero] at hjlen hd
        refine MatchRel.matched d ds i j used _ (lt_of_not_le hbreak) hjlen hju
          (hd ▸ hel) ?_ (matchLoop_rel entries maxD2 ds (i + 1) (j :: used))
        intro j' hj' hju' hel'
        have := hmin j' (Nat.zero_le j') (by simpa using hj') hju' (by simpa using hel')
        rw [Nat.sub_zero] at this
        rw [← hd]
        exact this

theorem matchDetections_rel (entries : List (ℕ × BlobEntry)) (maxDist : ℚ)
    (dets : List Det3) :
    MatchRel entries (maxDist ^ 2) dets 0 [] (matchDetections entries maxDist dets) := by
  rw [matchDetections]
  by_cases h : entries = [] ∨ dets = []
  · rw [if_pos h]
    rcases h with h | h
    · cases dets with
      | nil => exact MatchRel.nil 0 []
      | cons d ds => exact MatchRel.exhausted d ds 0 [] (by simp [h])
    · subst h
      exact MatchRel.nil 0 []
  · rw [if_neg h]
    exact matchLoop_rel entries (maxDist ^ 2) dets 0 []

theorem matchLoop_snd_mem (entries : List (ℕ × BlobEntry)) (maxD2 : ℚ) :
    ∀ (ds : List Det3) (i : ℕ) (used : List ℕ) (p : ℕ × ℕ),
      p ∈ matchLoop entries maxD2 ds i used → p.2 ∈ entries.map Prod.fst
  | [], _, _, _ => by
    intro hp
    rw [matchLoop] at hp
    exact absurd hp (List.not_mem_nil _)
  | d :: ds, i, used, p => by
    intro hp
    rw [matchLoop] at hp
    by_cases hbreak : entries.length ≤ used.length
    · rw [if_pos hbreak] at hp
      exact absurd hp (List.not_mem_nil _)
    · rw [if_neg hbreak] at hp
      cases hb : bestTrackFor entries maxD2 used (det3Center d) with
      | none =>
        rw [hb] at hp
        exact matchLoop_snd_mem entries maxD2 ds (i + 1) used p hp
      | some j =>
        rw [hb] at hp
        have hjlen : j < entries.length := by
          rw [bestTrackFor] at hb
          obtain ⟨d2, haux⟩ : ∃ d2, bestTrackAux (det3Center d) maxD2 used entries 0 none
              = some (j, d2) := by
            cases haux : bestTrackAux (det3Center d) maxD2 used entries 0 none with
            | none =>
              rw [haux] at hb
              exact Option.noConfusion hb
            | some x =>
              rw [haux] at hb
              obtain ⟨xj, xd⟩ := x
              cases hb
              exact ⟨xd, rfl⟩
          obtain ⟨hprov, _, _⟩ :=
            bestTrackAux_some (det3Center d) maxD2 used entries 0 none j d2 haux
          rcases hprov with h1 | ⟨_, hjlen, _, _, _⟩
          · exact Option.noConfusion h1
          · simpa using hjlen
        rcases List.mem_cons.1 hp with rfl | hp'
        · have hmem : entries.getD j junkEntryPair ∈ entries := by
            rw [List.getD_eq_getElem entries junkEntryPair hjlen]
            exact List.getElem_mem hjlen
          exact List.mem_map.2 ⟨entries.getD j junkEntryPair, hmem, rfl⟩
        · exact matchLoop_snd_mem entries maxD2 ds (i + 1) (j :: used) p hp'

theorem lookupNat_mem : ∀ (l : List (ℕ × ℕ)) (i v : ℕ),
    lookupNat l i = some v → (i, v) ∈ l
  | [], _, _ => by
    intro h
    exact Option.noConfusion h
  | (k, w) :: rest, i, v => by
    intro h
    rw [lookupNat] at h
    by_cases hk : k = i
    · rw [if_pos hk] at h
      cases h
      subst hk
      exact List.mem_cons_self _ _
    · rw [if_neg hk] at h
      exact List.mem_cons_of_mem _ (lookupNat_mem rest i v h)

theorem mem_dictSet_keys {α : Type} :
    ∀ (l : List (ℕ × α)) (k : ℕ) (v : α) (x : ℕ),
      (x ∈ (dictSet l k v).map Prod.fst ↔ x = k ∨ x ∈ l.map Prod.fst)
  | [], k, v, x => by simp [dictSet]
  | (k', v') :: rest, k, v, x => by
    by_cases hk : k' = k
    · subst hk
      rw [dictSet, if_pos rfl]
      simp
    · rw [dictSet, if_neg hk]
      simp only [List.map_cons, List.mem_cons, mem_dictSet_keys rest k v x]
      tauto

theorem dictSet_keys_nodup {α : Type} :
    ∀ (l : List (ℕ × α)) (k : ℕ) (v : α),
      (l.map Prod.fst).Nodup → ((dictSet l k v).map Prod.fst).Nodup
  | [], k, v => by simp [dictSet]
  | (k', v') :: rest, k, v => by
    intro hnd
    simp only [List.map_cons, List.nodup_cons] at hnd
    by_cases hk : k' = k
    · subst hk
      rw [dictSet, if_pos rfl]
      simpa using hnd
    · rw [dictSet, if_neg hk]
      simp only [List.map_cons, List.nodup_cons]
      refine ⟨?_, dictSet_keys_nodup rest k v hnd.2⟩
      intro hmem
      rcases (mem_dictSet_keys rest k v k').1 hmem with h | h
      · exact hk h
      · exact hnd.1 h

theorem processDets_nid (assigns : List (ℕ × ℕ)) :
    ∀ (ds : List Det3) (i : ℕ) (tracked : List (ℕ × BlobEntry)) (nid : ℕ)
      (active : List (ℕ × (ℚ × ℚ))),
      (processDets assigns ds i tracked nid active).2.1 = nid + freshCount assigns ds i
  | [], _, _, _, _ => by simp [processDets, freshCount]
  | d :: ds, i, tracked, nid, active => by
    rw [processDets, freshCount]
    cases hl : lookupNat assigns i with
    | some bid =>
      rw [processDets_nid assigns ds (i + 1) _ nid _]
      simp [hl]
    | none =>
      rw [processDets_nid assigns ds (i + 1) _ (nid + 1) _]
      simp only [hl, Option.isNone_none, if_pos]
      omega

theorem processDets_avoid (assigns : List (ℕ × ℕ)) (x : ℕ) :
    ∀ (ds : List Det3) (i : ℕ) (tracked : List (ℕ × BlobEntry)) (nid : ℕ)
      (active : List (ℕ × (ℚ × ℚ))),
      x ∉ tracked.map Prod.fst →
      (∀ i' v, lookupNat assigns i' = some v → v ≠ x) →
      x < nid →
      x ∉ active.map Prod.fst →
      x ∉ (processDets assigns ds i tracked nid active).1.map Prod.fst ∧
      x ∉ (processDets assigns ds i tracked nid active).2.2.map Prod.fst
  | [], i, tracked, nid, active => by
    intro h1 _ _ h4
    exact ⟨h1, h4⟩
  | d :: ds, i, tracked, nid, active => by
    intro h1 h2 h3 h4
    rw [processDets]
    cases hl : lookupNat assigns i with
    | some bid =>
      refine processDets_avoid assigns x ds (i + 1) _ nid _ ?_ h2 h3 ?_
      · intro hmem
        rcases (mem_dictSet_keys _ bid _ x).1 hmem with h | h
        · exact h2 i bid hl h.symm
        · exact h1 h
      · intro hmem
        rcases (mem_dictSet_keys _ bid _ x).1 hmem with h | h
        · exact h2 i bid hl h.symm
        · exact h4 h
    | none =>
      refine processDets_avoid assigns x ds (i + 1) _ (nid + 1) _ ?_ h2 (by omega) ?_
      · intro hmem
        rw [List.map_append] at hmem
        rcases List.mem_append.1 hmem with h | h
        · exact h1 h
        · simp only [List.map_cons, List.map_nil, List.mem_singleton] at h
          omega
      · intro hmem
        rcases (mem_dictSet_keys _ nid _ x).1 hmem with h | h
        · omega
        · exact h4 h

theorem processDets_invb (assigns : List (ℕ × ℕ)) :
    ∀ (ds : List Det3) (i : ℕ) (tracked : List (ℕ × BlobEntry)) (nid : ℕ)
      (active : List (ℕ × (ℚ × ℚ))),
      (tracked.map Prod.fst).Nodup →
      (∀ k ∈ tracked.map Prod.fst, k < nid) →
      (∀ i' v, lookupNat assigns i' = some v → v < nid) →
      ((processDets assigns ds i tracked nid active).1.map Prod.fst).Nodup ∧
      (∀ k ∈ (processDets assigns ds i tracked nid active).1.map Prod.fst,
        k < (processDets assigns ds i tracked nid active).2.1)
  | [], i, tracked, nid, active => by
    intro h1 h2 _
    exact ⟨h1, h2⟩
  | d :: ds, i, tracked, nid, active => by
    intro h1 h2 hA
    rw [processDets]
    cases hl : lookupNat assigns i with
    | some bid =>
      refine processDets_invb assigns ds (i + 1) _ nid _
        (dictSet_keys_nodup _ bid _ h1) ?_ hA
      intro k hk
      rcases (mem_dictSet_keys _ bid _ k).1 hk with h | h
      · rw [h]
        exact hA i bid hl
      · exact h2 k h
    | none =>
      refine processDets_invb assigns ds (i + 1) _ (nid + 1) _ ?_ ?_
        (fun i' v hv => lt_trans (hA i' v hv) (Nat.lt_succ_self nid))
      · rw [List.map_append]
        refine List.Nodup.append h1 (by simp) ?_
        intro k hk hk'
        simp only [List.map_cons, List.map_nil, List.mem_singleton] at hk'
        subst hk'
        exact absurd (h2 k hk) (lt_irrefl k)
      · intro k hk
        rw [List.map_append] at hk
        rcases List.mem_append.1 hk with h | h
        · exact lt_trans (h2 k h) (Nat.lt_succ_self nid)
        · simp only [List.map_cons, List.map_nil, List.mem_singleton] at h
          omega

theorem processDets_active (assigns : List (ℕ × ℕ)) (x : ℕ) :
    ∀ (ds : List Det3) (i : ℕ) (tracked : List (ℕ × BlobEntry)) (nid : ℕ)
      (active : List (ℕ × (ℚ × ℚ))),
      (x ∈ (processDets assigns ds i tracked nid active).2.2.map Prod.fst ↔
        (x ∈ active.map Prod.fst ∨
         (∃ i', i ≤ i' ∧ i' < i + ds.length ∧ lookupNat assigns i' = some x) ∨
         (nid ≤ x ∧ x < nid + freshCount assigns ds i)))
  | [], i, tracked, nid, active => by
    rw [processDets, freshCount]
    constructor
    · intro h
      exact Or.inl h
    · rintro (h | ⟨i', h1, h2, _⟩ | ⟨h1, h2⟩)
      · exact h
      · simp at h2
        omega
      · omega
  | d :: ds, i, tracked, nid, active => by
    rw [processDets]
    cases hl : lookupNat assigns i with
    | some bid =>
      rw [processDets_active assigns x ds (i + 1) _ nid _]
      have hfc : freshCount assigns (d :: ds) i = freshCount assigns ds (i + 1) := by
        rw [freshCount]
        simp [hl]
      rw [← hfc]
      constructor
      · rintro (h | ⟨i', h1, h2, h3⟩ | h)
        · rcases (mem_dictSet_keys _ bid _ x).1 h with h' | h'
          · rw [h']
            exact Or.inr (Or.inl ⟨i, le_refl i, by simp, h' ▸ hl⟩)
          · exact Or.inl h'
        · exact Or.inr (Or.inl ⟨i', by omega, by simp only [List.length_cons]; omega, h3⟩)
        · exact Or.inr (Or.inr h)
      · rintro (h | ⟨i', h1, h2, h3⟩ | h)
        · exact Or.inl ((mem_dictSet_keys _ bid _ x).2 (Or.inr h))
        · rcases Nat.eq_or_lt_of_le h1 with rfl | hlt
          · rw [hl] at h3
            cases h3
            exact Or.inl ((mem_dictSet_keys _ x _ x).2 (Or.inl rfl))
          · exact Or.inr (Or.inl ⟨i', hlt, by simp only [List.length_cons] at h2; omega, h3⟩)
        · exact Or.inr (Or.inr h)
    | none =>
      rw [processDets_active assigns x ds (i + 1) _ (nid + 1) _]
      have hfc : freshCount assigns (d :: ds) i = 1 + freshCount assigns ds (i + 1) := by
        rw [freshCount]
        simp [hl]
      constructor
      · rintro (h | ⟨i', h1, h2, h3⟩ | h)
        · rcases (mem_dictSet_keys _ nid _ x).1 h with h' | h'
          · exact Or.inr (Or.inr ⟨le_of_eq h'.symm, by omega⟩)
          · exact Or.inl h'
        · exact Or.inr (Or.inl ⟨i', by omega, by simp only [List.length_cons]; omega, h3⟩)
        · exact Or.inr (Or.inr ⟨by omega, by omega⟩)
      · rintro (h | ⟨i', h1, h2, h3⟩ | h)
        · exact Or.inl ((mem_dictSet_keys _ nid _ x).2 (Or.inr h))
        · rcases Nat.eq_or_lt_of_le h1 with rfl | hlt
          · rw [hl] at h3
            exact Option.noConfusion h3
          · exact Or.inr (Or.inl ⟨i', hlt, by simp only [List.length_cons] at h2; omega, h3⟩)
        · rcases Nat.eq_or_lt_of_le h.1 with rfl | hlt
          · exact Or.inl ((mem_dictSet_keys _ nid _ nid).2 (Or.inl rfl))
          · exact Or.inr (Or.inr ⟨by omega, by omega⟩)

theorem survOf_keys_sublist (s : BlobTrackerState) :
    ((survOf s).map Prod.fst).Sublist (s.tracked_blobs.map Prod.fst) := by
  rw [survOf]
  have h2 : (s.tracked_blobs.map
      (fun kv => (kv.1, { kv.2 with age := kv.2.age + 1 }))).map Prod.fst
      = s.tracked_blobs.map Prod.fst := by
    rw [List.map_map]
    rfl
  exact h2 ▸ ((List.filter_sublist _).map Prod.fst)

theorem keys_nodup_val_eq {α : Type} :
    ∀ (l : List (ℕ × α)), (l.map Prod.fst).Nodup →
      ∀ (k : ℕ) (a b : α), (k, a) ∈ l → (k, b) ∈ l → a = b
  | [], _, k, a, b => by
    intro h
    exact absurd h (List.not_mem_nil _)
  | (k', v') :: rest, hnd, k, a, b => by
    intro ha hb
    simp only [List.map_cons, List.nodup_cons] at hnd
    rcases List.mem_cons.1 ha with h1 | h1
    · rcases List.mem_cons.1 hb with h2 | h2
      · obtain ⟨_, hv1⟩ := Prod.mk.inj h1
        obtain ⟨_, hv2⟩ := Prod.mk.inj h2
        rw [hv1, hv2]
      · obtain ⟨hk1, _⟩ := Prod.mk.inj h1
        exact absurd (List.mem_map.2 ⟨(k, b), h2, hk1⟩) hnd.1
    · rcases List.mem_cons.1 hb with h2 | h2
      · obtain ⟨hk2, _⟩ := Prod.mk.inj h2
        exact absurd (List.mem_map.2 ⟨(k, a), h1, hk2⟩) hnd.1
      · exact keys_nodup_val_eq rest hnd.2 k a b h1 h2

theorem evicted_not_mem_surv (s : BlobTrackerState) (hinv : InvB s)
    (k : ℕ) (e : BlobEntry) (hmem : (k, e) ∈ s.tracked_blobs)
    (hage : s.max_age < e.age + 1) : k ∉ (survOf s).map Prod.fst := by
  intro hk
  obtain ⟨⟨k', e'⟩, hmem', hfst⟩ := List.mem_map.1 hk
  simp only at hfst
  subst hfst
  rw [survOf, List.mem_filter] at hmem'
  obtain ⟨hmem2, hle⟩ := hmem'
  obtain ⟨⟨k0, e0⟩, hmem0, heq⟩ := List.mem_map.1 hmem2
  simp only at heq
  obtain ⟨hk0, he0⟩ := Prod.mk.inj heq
  subst hk0
  have he : e0 = e := keys_nodup_val_eq _ hinv.1 _ _ _ hmem0 hmem
  rw [← he0, he] at hle
  simp only [decide_eq_true_eq] at hle
  omega

theorem matchDetections_val_mem (entries : List (ℕ × BlobEntry)) (maxDist : ℚ)
    (dets : List Det3) (i v : ℕ) :
    lookupNat (matchDetections entries maxDist dets) i = some v →
    v ∈ entries.map Prod.fst := by
  intro h
  have hmem := lookupNat_mem _ _ _ h
  rw [matchDetections] at hmem
  by_cases hc : entries = [] ∨ dets = []
  · rw [if_pos hc] at hmem
    exact absurd hmem (List.not_mem_nil _)
  · rw [if_neg hc] at hmem
    exact matchLoop_snd_mem entries _ dets 0 [] (i, v) hmem

/-! ### Claim theorems -/

/-- Claim C5: `BYTETracker.update`'s detection filter partitions the
input: detections with area strictly below `min_box_area` land in
neither list (area exactly `min_box_area` is kept), surviving detections
go to the high list exactly when `score ≥ track_thresh` and to the low
list otherwise, both lists preserve input order (are sublists of the
input), and no detection is in both lists. -/
theorem claim_C5 (minArea thresh : ℚ) (dets : List Detection) :
    (∀ d ∈ dets, (d.bbox.x2 - d.bbox.x1) * (d.bbox.y2 - d.bbox.y1) < minArea →
      d ∉ (splitDetections minArea thresh dets).1 ∧
      d ∉ (splitDetections minArea thresh dets).2) ∧
    (∀ d ∈ dets, minArea ≤ (d.bbox.x2 - d.bbox.x1) * (d.bbox.y2 - d.bbox.y1) →
      (thresh ≤ d.score → d ∈ (splitDetections minArea thresh dets).1) ∧
      (¬ thresh ≤ d.score → d ∈ (splitDetections minArea thresh dets).2)) ∧
    (splitDetections minArea thresh dets).1.Sublist dets ∧
    (splitDetections minArea thresh dets).2.Sublist dets ∧
    ∀ d, d ∈ (splitDetections minArea thresh dets).1 →
      d ∉ (splitDetections minArea thresh dets).2 := by
  refine ⟨?_, ?_, splitDetections_hi_sublist _ _ _, splitDetections_lo_sublist _ _ _, ?_⟩
  · intro d _ hlt
    constructor
    · intro hmem
      exact absurd (mem_splitDetections_hi.1 hmem).2.1 (not_le.2 hlt)
    · intro hmem
      exact absurd (mem_splitDetections_lo.1 hmem).2.1 (not_le.2 hlt)
  · intro d hd harea
    exact ⟨fun hs => mem_splitDetections_hi.2 ⟨hd, harea, hs⟩,
           fun hs => mem_splitDetections_lo.2 ⟨hd, harea, hs⟩⟩
  · intro d hhi hlo
    exact (mem_splitDetections_lo.1 hlo).2.2 (mem_splitDetections_hi.1 hhi).2.2

/-- Witness for C5 at a concrete input: with `min_box_area = 10` and
`track_thresh = 1/2`, a `3 × 3` detection (area 9) is dropped from both
lists. -/
theorem claim_C5_witness :
    junkDetection3x3 ∉ (splitDetections 10 (1/2) [junkDetection3x3]).1 ∧
    junkDetection3x3 ∉ (splitDetections 10 (1/2) [junkDetection3x3]).2 :=
  (claim_C5 10 (1/2) [junkDetection3x3]).1 junkDetection3x3 (by simp) (by norm_num [junkDetection3x3])

/-- Claim C7: an `update` call with no detections on a state whose three
pools are all empty returns no tracks and changes nothing except the
frame counter, which grows by one. -/
theorem claim_C7 (s : TrackerState) (h1 : s.tracked_tracks = [])
    (h2 : s.lost_tracks = []) (h3 : s.removed_tracks = []) :
    update s [] = ([], { s with frame_id := s.frame_id + 1 }) := by
  obtain ⟨tt, tb, mt, mba, fid, tr, lo, rm, cnt⟩ := s
  simp only [TrackerState.mk.injEq] at h1 h2 h3 ⊢
  subst h1; subst h2; subst h3
  simp [update, updateFull, validOf, lowOf, predictedOf, assoc1Of, tracked2Of, assoc2Of, step2Of, tracked4Of, remainingOf, createdOf, tracked6Of, lost1Of, step8Of, splitDetections, associate,
    applyMatches, markLost, mkNewTracks, pruneLost]

/-- Witness for C7: the freshly constructed tracker. -/
theorem claim_C7_witness :
    update (initState 1 2 3 4) [] = ([], { initState 1 2 3 4 with frame_id := 1 }) := by
  have h := claim_C7 (initState 1 2 3 4) rfl rfl rfl
  simpa [initState] using h

/-- Claim C8: `_associate` with an empty track list or empty detection
list returns no matches and everything unmatched, via the early return
(the cost-matrix machinery is the `else` branch, not entered). -/
theorem claim_C8 (tracks : List Track) (dets : List Detection) (thresh : ℚ)
    (h : tracks = [] ∨ dets = []) :
    associate tracks dets thresh = ([], List.range dets.length, List.range tracks.length) := by
  unfold associate
  rw [if_pos h]

/-- Witness for C8: one detection against no tracks. -/
theorem claim_C8_witness :
    associate [] [junkDetection] (1/2) = ([], [0], []) := by
  have h := claim_C8 [] [junkDetection] (1/2) (Or.inl rfl)
  simpa using h

/-- Claim C1 (code bug, lines 256–257 of `bytetrack.py`): the source
filters `tracked_tracks` down to `TRACKED` state *before* extracting the
`LOST` tracks from it, so a track that goes unmatched is dropped from
every pool.  Concretely: frame 1 creates track id 0; frame 2 has no
detections, the track is marked Lost — and afterwards all three pools
are empty, although the track was never Removed.  (The code's own
comment says "Move lost tracks to lost_tracks list", and spec §8's
scenario requires id 0 to sit in the lost pool here.) -/
theorem claim_C1 :
    ((update exInit [exDet]).2.tracked_tracks.map Track.track_id = [0] ∧
     (update exInit [exDet]).2.track_id_count = 1) ∧
    (update (update exInit [exDet]).2 []).2.tracked_tracks = [] ∧
    (update (update exInit [exDet]).2 []).2.lost_tracks = [] ∧
    (update (update exInit [exDet]).2 []).2.removed_tracks = [] := by
  norm_num [update, updateFull, validOf, lowOf, predictedOf, assoc1Of, tracked2Of, assoc2Of, step2Of, tracked4Of, remainingOf, createdOf, tracked6Of, lost1Of, step8Of,
    initState, splitDetections, exDet, exInit, associate,
    greedyAssignment, greedyLoop, bestPair, bestInRow, costOf, iouPair, applyMatches,
    applyMatchesVia, markLost, mkNewTracks, mkTrack, reviveLoop, pruneLost, modifyAt,
    matchedUpdate, Track.predict, Track.update, Track.get_bbox, Track.get_center,
    junkTrack, junkDetection, TrackStateTRACKED, TrackStateLOST, TrackStateNEW,
    TrackStateREMOVED, List.range_succ, List.range_zero]

/-- Claim C2 (code bug, consequence of the lost-pool bug at lines
256–257 of `bytetrack.py`): a track that misses a single frame
(`1 ≤ track_buffer = 30`) is dropped from every pool, so when the same
detection reappears at exactly the predicted position it gets the fresh
id 1 instead of reviving id 0. -/
theorem claim_C2 :
    (update exInit [exDet]).2.tracked_tracks.map Track.track_id = [0] ∧
    (update (update (update exInit [exDet]).2 []).2 [exDet]).1.map Track.track_id = [1] := by
  norm_num [update, updateFull, validOf, lowOf, predictedOf, assoc1Of, tracked2Of, assoc2Of, step2Of, tracked4Of, remainingOf, createdOf, tracked6Of, lost1Of, step8Of,
    initState, splitDetections, exDet, exInit, associate,
    greedyAssignment, greedyLoop, bestPair, bestInRow, costOf, iouPair, applyMatches,
    applyMatchesVia, markLost, mkNewTracks, mkTrack, reviveLoop, pruneLost, modifyAt,
    matchedUpdate, Track.predict, Track.update, Track.get_bbox, Track.get_center,
    junkTrack, junkDetection, TrackStateTRACKED, TrackStateLOST, TrackStateNEW,
    TrackStateREMOVED, List.range_succ, List.range_zero]

/-- Claim C3 (code bug, lines 240–271 of `bytetrack.py`): new-track
creation runs *before* the lost-pool association, and the lost-pool
association reuses the same `remaining_detections` list, so one
detection is consumed twice.  Concretely: on a state whose lost pool
holds track id 0 (counter at 1), a single detection at the track's
predicted position spawns the brand-new track id 1 *and* revives id 0 —
the call returns both ids for that one detection. -/
theorem claim_C3 :
    (update exLostState [exDet]).1.map Track.track_id = [1, 0] ∧
    (newTracksOf exLostState [exDet]).map Track.track_id = [1] ∧
    (update exLostState [exDet]).2.lost_tracks = [] := by
  norm_num [update, updateFull, newTracksOf, validOf, lowOf, predictedOf, assoc1Of, tracked2Of, assoc2Of, step2Of, tracked4Of, remainingOf, createdOf, tracked6Of, lost1Of, step8Of,
    initState, splitDetections, exDet, exInit,
    exLostState, exLostTrack, associate, greedyAssignment, greedyLoop, bestPair, bestInRow,
    costOf, iouPair, applyMatches, applyMatchesVia, markLost, mkNewTracks, mkTrack,
    reviveLoop, pruneLost, modifyAt, matchedUpdate, Track.predict, Track.update,
    Track.get_bbox, Track.get_center, junkTrack, junkDetection, TrackStateTRACKED,
    TrackStateLOST, TrackStateNEW, TrackStateREMOVED, List.range_succ, List.range_zero]

/-- Claim C4: on every state reachable from construction or reset, all
ids across the three pools are pairwise distinct and below the id
counter; one `update` call assigns its created tracks the consecutive
ids `track_id_count, track_id_count + 1, …` in creation order (strictly
increasing, never below the counter — hence never reusing any id ever
assigned), advances the counter by the number of created tracks, and
every id in the resulting pools is either an old pool id (ids are never
reassigned) or one of the created ids. -/
theorem claim_C4 (tt : ℚ) (tb : ℤ) (mt mba : ℚ) (s : TrackerState)
    (h : Reachable tt tb mt mba s) :
    (poolIds s).Nodup ∧
    (∀ i ∈ poolIds s, i < s.track_id_count) ∧
    ∀ dets : List Detection,
      idsOf (newTracksOf s dets)
        = List.range' s.track_id_count (newTracksOf s dets).length ∧
      (update s dets).2.track_id_count
        = s.track_id_count + (newTracksOf s dets).length ∧
      (poolIds (update s dets).2).Nodup ∧
      (∀ i ∈ poolIds (update s dets).2, i < (update s dets).2.track_id_count) ∧
      (∀ i ∈ poolIds (update s dets).2,
        i ∈ poolIds s ∨ i ∈ idsOf (newTracksOf s dets)) := by
  obtain ⟨hl, hr, hn, hb⟩ := reachable_inv tt tb mt mba s h
  have hpool : poolIds s = idsOf s.tracked_tracks := by
    rw [poolIds, hl, hr]
    simp [idsOf]
  refine ⟨by rw [hpool]; exact hn, by rw [hpool]; exact hb, ?_⟩
  intro dets
  obtain ⟨h1, h2, h3, h4, h5, h6, h7⟩ := update_inv_step s dets hl hr hn hb
  have hpool' : poolIds (update s dets).2 = idsOf (update s dets).2.tracked_tracks := by
    rw [poolIds, h1, h2]
    simp [idsOf]
  exact ⟨h6, h5, by rw [hpool']; exact h3, by rw [hpool']; exact h4,
    by rw [hpool', hpool]; exact h7⟩

/-- Witness for C4: the freshly constructed tracker with default
parameters. -/
theorem claim_C4_witness :
    (poolIds (initState (1/2) 30 (8/10) 10)).Nodup ∧
    idsOf (newTracksOf (initState (1/2) 30 (8/10) 10) [exDet])
      = List.range' (initState (1/2) 30 (8/10) 10).track_id_count
          (newTracksOf (initState (1/2) 30 (8/10) 10) [exDet]).length := by
  have h := claim_C4 (1/2) 30 (8/10) 10 _ Reachable.init
  exact ⟨h.1, (h.2.2 [exDet]).1⟩

/-- Claim C6: `_convert_tracks_to_blobs` emits exactly one record per
input track (no track is dropped), and the per-track processing follows
`ReconRel`: the track's id is bound to the geometry of a closest
not-yet-used original blob whenever its squared centroid distance to the
track's predicted center is below the squared association radius
(`100² = 10000`), marking that blob used so it binds at most one track;
otherwise the record is a rectangular blob synthesized from the track's
predicted box with the four box corners as its polygon. -/
theorem claim_C6 (tracks : List Track) (blobs : List BlobInfo) :
    ReconRel blobs tracks [] (convertTracksToBlobs tracks blobs)
      (convertLoop blobs tracks []).2 ∧
    (convertTracksToBlobs tracks blobs).length = tracks.length := by
  rw [convertTracksToBlobs]
  exact convertLoop_rel blobs tracks []

/-- Claim C9: one `BlobTracker.update` call (i) ages every existing entry
by one and evicts entries whose new age exceeds `max_age` before any
matching — matching runs over `survOf s`, and an evicted id appears
neither in the new dict nor in the returned mapping; (ii) matches the
detections in input order, each to a nearest not-yet-used surviving
entry within `max_distance` (the `MatchRel` relation, squared-distance
comparisons); (iii) gives each unmatched detection a fresh id from the
monotonically increasing counter (the counter advances by the number of
unmatched detections, and since all dict keys stay below the counter, no
id is ever reused); and (iv) returns a mapping whose ids are exactly the
ids matched this call plus the ids created this call. -/
theorem claim_C9 (s : BlobTrackerState) (dets : List Det3) (hinv : InvB s) :
    MatchRel (survOf s) (s.max_distance ^ 2) dets 0 []
      (matchDetections (survOf s) s.max_distance dets) ∧
    (∀ k e, (k, e) ∈ s.tracked_blobs → s.max_age < e.age + 1 →
      k ∉ (blobUpdate s dets).2.tracked_blobs.map Prod.fst ∧
      k ∉ (blobUpdate s dets).1.map Prod.fst) ∧
    (blobUpdate s dets).2.next_id
      = s.next_id + freshCount (matchDetections (survOf s) s.max_distance dets) dets 0 ∧
    InvB (blobUpdate s dets).2 ∧
    (∀ x, x ∈ (blobUpdate s dets).1.map Prod.fst ↔
      ((∃ i, i < dets.length ∧
          lookupNat (matchDetections (survOf s) s.max_distance dets) i = some x) ∨
        (s.next_id ≤ x ∧ x < (blobUpdate s dets).2.next_id))) := by
  have hsurvnd : ((survOf s).map Prod.fst).Nodup := (survOf_keys_sublist s).nodup hinv.1
  have hsurvbd : ∀ k ∈ (survOf s).map Prod.fst, k < s.next_id :=
    fun k hk => hinv.2 k ((survOf_keys_sublist s).mem hk)
  have hvals : ∀ i v,
      lookupNat (matchDetections (survOf s) s.max_distance dets) i = some v →
      v < s.next_id :=
    fun i v hv => hsurvbd v (matchDetections_val_mem _ _ _ _ _ hv)
  have hnid : (blobUpdate s dets).2.next_id
      = s.next_id + freshCount (matchDetections (survOf s) s.max_distance dets) dets 0 :=
    processDets_nid _ dets 0 _ s.next_id []
  refine ⟨matchDetections_rel _ _ _, ?_, hnid, ?_, ?_⟩
  · intro k e hmem hage
    have hk1 : k ∉ (survOf s).map Prod.fst := evicted_not_mem_surv s hinv k e hmem hage
    have hk2 : ∀ i' v,
        lookupNat (matchDetections (survOf s) s.max_distance dets) i' = some v →
        v ≠ k := by
      intro i' v hv heq
      exact hk1 (heq ▸ matchDetections_val_mem _ _ _ _ _ hv)
    have hk3 : k < s.next_id := hinv.2 k (List.mem_map.2 ⟨(k, e), hmem, rfl⟩)
    exact processDets_avoid (matchDetections (survOf s) s.max_distance dets) k dets 0
      (survOf s) s.next_id [] hk1 hk2 hk3 (by simp)
  · have h := processDets_invb (matchDetections (survOf s) s.max_distance dets) dets 0
      (survOf s) s.next_id [] hsurvnd hsurvbd hvals
    exact ⟨h.1, h.2⟩
  · intro x
    have h := processDets_active (matchDetections (survOf s) s.max_distance dets) x dets 0
      (survOf s) s.next_id []
    rw [hnid]
    constructor
    · intro hx
      rcases h.1 hx with hfalse | ⟨i, _, h2, h3⟩ | hc
      · simp at hfalse
      · exact Or.inl ⟨i, by omega, h3⟩
      · exact Or.inr hc
    · rintro (⟨i, h1, h2⟩ | hc)
      · exact h.2 (Or.inr (Or.inl ⟨i, Nat.zero_le i, by omega, h2⟩))
      · exact h.2 (Or.inr (Or.inr hc))

/-- Witness for C9: the freshly constructed fallback tracker
(`max_distance = 50`, `max_age = 5`) receiving one detection. -/
theorem claim_C9_witness :
    InvB { max_distance := 50, max_age := 5, next_id := 0, tracked_blobs := [] } ∧
    (blobUpdate { max_distance := 50, max_age := 5, next_id := 0, tracked_blobs := [] }
        [(1, 2, 3)]).2.next_id
      = 0 + freshCount
          (matchDetections
            (survOf { max_distance := 50, max_age := 5, next_id := 0, tracked_blobs := [] })
            50 [(1, 2, 3)])
          [(1, 2, 3)] 0 := by
  have hi : InvB { max_distance := 50, max_age := 5, next_id := 0, tracked_blobs := [] } :=
    ⟨List.nodup_nil, fun k hk => absurd hk (List.not_mem_nil k)⟩
  exact ⟨hi, (claim_C9 _ [(1, 2, 3)] hi).2.2.1⟩

/-- Claim C10: `Track.predict` changes only the kinematic mean and the
covariance scalar (in particular `track_id` and `start_frame` are kept),
and `Track.update` changes only the mean, the stored bbox, the stored
score and `tracklet_len` (in particular `track_id`, `start_frame` and
`state` are kept). -/
theorem claim_C10 (t : Track) (d : Detection) :
    (t.predict.track_id = t.track_id ∧ t.predict.start_frame = t.start_frame ∧
     t.predict.state = t.state ∧ t.predict.frame_id = t.frame_id ∧
     t.predict.bbox = t.bbox ∧ t.predict.score = t.score ∧
     t.predict.tracklet_len = t.tracklet_len) ∧
    ((t.update d).track_id = t.track_id ∧ (t.update d).start_frame = t.start_frame ∧
     (t.update d).state = t.state ∧ (t.update d).frame_id = t.frame_id ∧
     (t.update d).covariance = t.covariance) := by
  constructor <;> simp [Track.predict, Track.update]

end BlobOSC
